import Mathlib

/-!
Verification development for the flex-chess board core
(src/common/common.py, src/common/coordinates.py, src/common/object.py,
src/common/board.py, src/common/piecemeal.py).

The board state machine is shallowly embedded: Python objects become Lean
records, in-place mutation becomes explicit state passing, and raised
exceptions become an explicit error type.  Two models are used:

* a single-board value model (`State`) in which the board's grid, jail and
  the records of all piece objects are one value — enough for every claim
  about one live board; and
* a heap model (`World`) with explicit board and piece identities, needed
  to speak about `deepcopy` and aliasing between a real board and the
  scratch copies made during move generation.
-/

namespace FlexChess

/-- Error taxonomy of the Python code: IndexError for out-of-bounds access,
ValueError for coordinate dimension mismatches (raised by
Point._check_size), AttributeError for attribute access on None,
TypeError for reduce() over an empty sequence, and the game-semantic
IllegalBoardState exception from object.py/board.py. -/
inductive Err where
  | outOfBounds
  | dimension
  | attrError
  | emptyReduce
  | illegalBoardState
deriving DecidableEq, Repr

/-- Coordinates: common.py Point and coordinates.py CartesianPoint are both
immutable integer tuples; we embed them as lists of integers. -/
abbrev Point := List Int

/-- Point.zero(dimensions): the all-zero point of a given dimension. -/
def zeroPt (n : Nat) : Point := List.replicate n 0

/-- Point.__add__: componentwise sum; Point._check_size raises ValueError
when the dimensions differ. -/
def ptAdd (a b : Point) : Except Err Point :=
  if a.length = b.length then .ok (List.zipWith (· + ·) a b) else .error .dimension

/-- Point.__le__: componentwise less-or-equal; ValueError on dimension
mismatch. -/
def ptLe (a b : Point) : Except Err Bool :=
  if a.length = b.length then
    .ok ((List.zip a b).all fun p => decide (p.1 ≤ p.2))
  else .error .dimension

/-- Point.__lt__: componentwise strict less-than; ValueError on dimension
mismatch. -/
def ptLt (a b : Point) : Except Err Bool :=
  if a.length = b.length then
    .ok ((List.zip a b).all fun p => decide (p.1 < p.2))
  else .error .dimension

/-- Tensor.__contains__ (common.py): the chained Python comparison
`Point.zero(self.dim) <= item < self.shape`; the first comparison uses the
shape's dimension, so a mismatched coordinate raises ValueError before
anything else, and the second comparison is skipped when the first is
false. -/
def tensorContains (shape c : Point) : Except Err Bool := do
  let lo ← ptLe (zeroPt shape.length) c
  if lo then ptLt c shape else pure false

/-- Board.__contains__ (board.py): the chained comparison
`Point.zero(len(item)) <= item < self.shape`.  The zero point is built with
the coordinate's own length, so the first comparison never raises; when it
is false Python short-circuits and `item < self.shape` — the only place a
dimension mismatch could be detected — is never evaluated. -/
def boardContains (shape c : Point) : Except Err Bool := do
  let lo ← ptLe (zeroPt c.length) c
  if lo then ptLt c shape else pure false

/-- Board._assert_on_board (board.py): raises IndexError when the point is
not contained in the board. -/
def assertOnBoard (shape c : Point) : Except Err Unit := do
  let b ← boardContains shape c
  if b then pure () else .error .outOfBounds

/-- One step of the reduce() in Tensor._index (common.py):
`lambda x, y: (x[1] * y[0] + x[0], x[1] * y[1])` over reversed
(coordinate, shape) pairs. -/
def reduceStep (x y : Int × Int) : Int × Int :=
  (x.2 * y.1 + x.1, x.2 * y.2)

/-- Tensor._index (common.py): bounds check, then the row-major
linearization computed by reduce() without an initializer (Python's
reduce raises TypeError on an empty sequence, i.e. a 0-dimensional
shape). -/
def tensorIndex (shape c : Point) : Except Err Int := do
  let b ← tensorContains shape c
  if b then
    match (List.zip c shape).reverse with
    | [] => .error .emptyReduce
    | p :: ps => .ok (List.foldl reduceStep p ps).1
  else .error .outOfBounds

/-- Piece (object.py / board.py): owner, display token and the
(board, coordinates) back-reference, `none` when never placed.  In the
single-board value model the board half of the back-reference is
`Option Unit` — `some ()` when it points at the one live board.  The
move_generators attribute holds functions and is passed explicitly to
`getMoves` instead of being stored. -/
structure Piece where
  player : Nat
  token : String := "X"
  board : Option Unit := none
  place : Option Point := none
deriving DecidableEq, Repr

/-- Operation (object.py / board.py). -/
inductive Operation where
  | PLACE
  | REMOVE
  | CAPTURE
deriving DecidableEq, Repr

/-- CAPTURE_OPS membership: {PLACE, CAPTURE}. -/
def inCaptureOps : Operation → Bool
  | .PLACE => true
  | .REMOVE => false
  | .CAPTURE => true

/-- REMOVE_OPS membership: {REMOVE, CAPTURE}. -/
def inRemoveOps : Operation → Bool
  | .PLACE => false
  | .REMOVE => true
  | .CAPTURE => true

/-- Mutation (object.py / board.py): operation, target point and optional
payload piece.  Pieces are referred to by identity (a numeric id into the
piece store), mirroring Python object references. -/
structure Mutation where
  op : Operation
  point : Point
  payload : Option Nat := none
deriving DecidableEq, Repr

/-- The single-board world: the Board object of object.py (shape, the
Tensor's flat contents, and the jail as a per-player set of piece ids)
together with the store of all Piece objects, keyed by id.  Python keeps
the piece objects on the heap; here they are one total function so that
mutating a piece's back-reference is an update of `pieces`. -/
structure State where
  shape : Point
  contents : List (Option Nat)
  jail : Nat → Finset Nat
  pieces : Nat → Piece

/-- Board.__init__ (object.py): a Tensor of `prod shape` empty cells and an
empty defaultdict jail.  The piece store is the ambient heap of piece
objects, supplied by the caller. -/
def mkBoard (shape : Point) (pieces : Nat → Piece) : State :=
  { shape := shape
    contents := List.replicate shape.prod.toNat none
    jail := fun _ => ∅
    pieces := pieces }

/-- Tensor.__getitem__ via Board.__getitem__ (object.py): index then read
the flat buffer. -/
def getItem (s : State) (c : Point) : Except Err (Option Nat) := do
  let i ← tensorIndex s.shape c
  pure (s.contents.getD i.toNat none)

/-- Board.__getitem__ (board.py): _assert_on_board, then the nested-list
lookup.  On every point that survives the assert the nested-list matrix
holds the same cells as the flat Tensor, so the value is read through the
shared flat representation; the error behaviour is board.py's. -/
def getItemB (s : State) (c : Point) : Except Err (Option Nat) := do
  let _ ← assertOnBoard s.shape c
  getItem s c

/-- Board._update_piece_location: `piece.place(self, place)` resp.
`piece.board = self; piece.coordinates = place` — the board half of the
back-reference is always set to this board, the coordinate half to
`place` (possibly None). -/
def updateLoc (s : State) (pid : Nat) (place : Option Point) : State :=
  { s with pieces := fun q =>
      if q = pid then { s.pieces pid with board := some (), place := place }
      else s.pieces q }

/-- Tensor.__setitem__ (common.py): index (with its own bounds check) and
overwrite the flat buffer. -/
def setT (s : State) (c : Point) (v : Option Nat) : Except Err State := do
  let i ← tensorIndex s.shape c
  pure { s with contents := s.contents.set i.toNat v }

/-- Board.__setitem__ (object.py): read the old occupant, detach it
(back-reference coordinate becomes None), write the cell, then attach the
new piece (back-reference becomes this board at this point). -/
def setItem (s : State) (key : Point) (v : Option Nat) : Except Err State := do
  let occ ← getItem s key
  let s1 := match occ with
    | some pid => updateLoc s pid none
    | none => s
  let s2 ← setT s1 key v
  pure (match v with
    | some vid => updateLoc s2 vid (some key)
    | none => s2)

/-- Board.__delitem__ (object.py): read the old occupant, detach it, clear
the cell. -/
def delItem (s : State) (key : Point) : Except Err State := do
  let occ ← getItem s key
  let s1 := match occ with
    | some pid => updateLoc s pid none
    | none => s
  setT s1 key none

/-- Jail bookkeeping: `self.jail[player].add(piece)` on the defaultdict of
sets. -/
def jailAdd (s : State) (player pid : Nat) : State :=
  { s with jail := fun q => if q = player then insert pid (s.jail q) else s.jail q }

/-- Loop body of Board.apply (object.py / board.py) for one tagged
Mutation: if the point is occupied and the operation is in CAPTURE_OPS,
the occupant is added to `jail[payload.player]` (AttributeError when the
payload is None); operations in REMOVE_OPS delete the point; PLACE writes
the payload. -/
def applyMutation (s : State) (m : Mutation) : Except Err State := do
  let occ ← getItem s m.point
  let s1 ←
    match occ with
    | some occPid =>
      if inCaptureOps m.op then
        match m.payload with
        | none => .error .attrError
        | some pay => pure (jailAdd s ((s.pieces pay).player) occPid)
      else pure s
    | none => pure s
  let s2 ← if inRemoveOps m.op then delItem s1 m.point else pure s1
  if m.op = .PLACE then setItem s2 m.point m.payload else pure s2

/-- Board.apply (object.py / board.py): replay the sequence in order
against the live board.  A raised error aborts the remainder; the state
reached so far is kept (the Python board was mutated in place), so the
result is the final state paired with the error, if any. -/
def applySeq (s : State) : List Mutation → State × Option Err
  | [] => (s, none)
  | m :: ms =>
    match applyMutation s m with
    | .ok s1 => applySeq s1 ms
    | .error e => (s, some e)

/-- Result of running the ray generator of piecemeal.py with a given
amount of fuel: the finished list of yielded points, the yields produced
before an uncaught exception, or fuel exhaustion (the loop was still
running). -/
inductive RayOut where
  | out (l : List Point)
  | fail (l : List Point) (e : Err)
  | spin
deriving DecidableEq, Repr

/-- Prefixes a yielded point onto the rest of a ray run. -/
def rayCons (p : Point) : RayOut → RayOut
  | .out l => .out (p :: l)
  | .fail l e => .fail (p :: l) e
  | .spin => .spin

/-- While-loop of get_repeated_points (piecemeal.py), one fuel unit per
iteration.  `piece` is the occupant of the origin (None origin only
matters on the occupied branch, where `piece.player` raises
AttributeError unless `capture` already short-circuited the Python
conjunction).  `steps k` is the k-th value of the step generator, `none`
meaning StopIteration.  Board access goes through board.py's Board, the
class piecemeal.py imports. -/
def rayLoop (s : State) (piece : Option Nat) (steps : Nat → Option Point)
    (capture : Bool) : Nat → Point → Nat → RayOut
  | _, _, 0 => .spin
  | k, point, fuel + 1 =>
    match boardContains s.shape point with
    | .error e => .fail [] e
    | .ok false => .out []
    | .ok true =>
      match getItemB s point with
      | .error e => .fail [] e
      | .ok none =>
        match steps k with
        | none => .out [point]
        | some d =>
          match ptAdd point d with
          | .error e => .fail [point] e
          | .ok point' => rayCons point (rayLoop s piece steps capture (k + 1) point' fuel)
      | .ok (some q) =>
        if capture then
          match piece with
          | none => .fail [] .attrError
          | some pid =>
            if (s.pieces pid).player ≠ (s.pieces q).player then .out [point] else .out []
        else .out []

/-- get_repeated_points (piecemeal.py): read the origin piece, advance
once (StopIteration before the loop yields the empty ray), then run the
while loop. -/
def getRepeatedPoints (s : State) (point : Point) (steps : Nat → Option Point)
    (capture : Bool) (fuel : Nat) : RayOut :=
  match getItemB s point with
  | .error e => .fail [] e
  | .ok piece =>
    match steps 0 with
    | none => .out []
    | some d =>
      match ptAdd point d with
      | .error e => .fail [] e
      | .ok p1 => rayLoop s piece steps capture 1 p1 fuel

/-- Termination of a ray run: some finite fuel suffices for the loop to
finish (by any exit, normal or exceptional). -/
def rayTerminates (s : State) (point : Point) (steps : Nat → Option Point)
    (capture : Bool) : Prop :=
  ∃ fuel, getRepeatedPoints s point steps capture fuel ≠ RayOut.spin

/-- Inner loop of Piece.get_moves (object.py / board.py): walk the
candidate sequences, trial-apply each one and keep those whose trial
raises nothing; IllegalBoardState rejects the candidate, any other
exception propagates.  `applyTrial` is the dynamically dispatched
`board_copy.apply` — in this value model deepcopy(board) is the board
value itself and the mutated copy is discarded, so only the raised
signal of the trial matters. -/
def getMovesGo (applyTrial : State → List Mutation → Option Err) (st : State) :
    List (List Mutation) → List (List Mutation) → Except Err (List (List Mutation))
  | [], acc => .ok acc
  | seq :: rest, acc =>
    match applyTrial st seq with
    | none => getMovesGo applyTrial st rest (acc ++ [seq])
    | some .illegalBoardState => getMovesGo applyTrial st rest acc
    | some e => .error e

/-- Piece.get_moves (object.py / board.py): iterate the registered move
generators in order, produce each generator's candidate sequences in
order, and filter them through trial application. -/
def getMoves (applyTrial : State → List Mutation → Option Err)
    (gens : List (State → Point → List (List Mutation)))
    (st : State) (pt : Point) : Except Err (List (List Mutation)) :=
  getMovesGo applyTrial st (gens.flatMap fun g => g st pt) []

/-- Trial application by the base Board class: Board.apply on the copy,
reporting only the raised error. -/
def baseApplyTrial (st : State) (seq : List Mutation) : Option Err :=
  (applySeq st seq).2

/-! ### Heap model

Move generation trials deep-copy the board; to express what happens to
the *real* pieces during a trial we need object identities.  `World`
holds every Board and Piece object, keyed by numeric ids, with counters
for allocating fresh ids. -/

/-- Piece object in the heap model: owner, token, and the back-reference
as a board id and coordinate. -/
structure PieceH where
  player : Nat
  token : String := "X"
  board : Option Nat := none
  place : Option Point := none
deriving DecidableEq, Repr

/-- Board object in the heap model: shape, flat grid of piece ids, and
the jail as a duplicate-free list of (player, piece id) pairs. -/
structure BoardH where
  shape : Point
  contents : List (Option Nat)
  jail : List (Nat × Nat)
deriving DecidableEq, Repr

/-- The heap: all boards and pieces, plus fresh-id counters. -/
structure World where
  nextB : Nat
  boardOf : Nat → BoardH
  nextP : Nat
  pieceOf : Nat → PieceH

/-- Board.__getitem__ in the heap model. -/
def getItemH (w : World) (b : Nat) (c : Point) : Except Err (Option Nat) := do
  let i ← tensorIndex (w.boardOf b).shape c
  pure ((w.boardOf b).contents.getD i.toNat none)

/-- Applies a function to one board of the heap. -/
def updBoard (w : World) (b : Nat) (f : BoardH → BoardH) : World :=
  { w with boardOf := fun j => if j = b then f (w.boardOf j) else w.boardOf j }

/-- Board._update_piece_location in the heap model: the piece's
back-reference now names board `b` and coordinate `place`. -/
def updateLocH (w : World) (pid : Nat) (b : Nat) (place : Option Point) : World :=
  { w with pieceOf := fun q =>
      if q = pid then { w.pieceOf pid with board := some b, place := place }
      else w.pieceOf q }

/-- Board.__setitem__ in the heap model. -/
def setItemH (w : World) (b : Nat) (key : Point) (v : Option Nat) : Except Err World := do
  let occ ← getItemH w b key
  let w1 := match occ with
    | some pid => updateLocH w pid b none
    | none => w
  let i ← tensorIndex (w1.boardOf b).shape key
  let w2 := updBoard w1 b fun bd => { bd with contents := bd.contents.set i.toNat v }
  pure (match v with
    | some vid => updateLocH w2 vid b (some key)
    | none => w2)

/-- Board.__delitem__ in the heap model. -/
def delItemH (w : World) (b : Nat) (key : Point) : Except Err World := do
  let occ ← getItemH w b key
  let w1 := match occ with
    | some pid => updateLocH w pid b none
    | none => w
  let i ← tensorIndex (w1.boardOf b).shape key
  pure (updBoard w1 b fun bd => { bd with contents := bd.contents.set i.toNat none })

/-- Jail add in the heap model: set semantics on the pair list. -/
def jailAddH (w : World) (b : Nat) (player pid : Nat) : World :=
  updBoard w b fun bd =>
    if (player, pid) ∈ bd.jail then bd else { bd with jail := bd.jail ++ [(player, pid)] }

/-- Loop body of Board.apply in the heap model. -/
def applyMutationH (w : World) (b : Nat) (m : Mutation) : Except Err World := do
  let occ ← getItemH w b m.point
  let w1 ←
    match occ with
    | some occPid =>
      if inCaptureOps m.op then
        match m.payload with
        | none => .error .attrError
        | some pay => pure (jailAddH w b ((w.pieceOf pay).player) occPid)
      else pure w
    | none => pure w
  let w2 ← if inRemoveOps m.op then delItemH w1 b m.point else pure w1
  if m.op = .PLACE then setItemH w2 b m.point m.payload else pure w2

/-- Board.apply in the heap model: replay in order, keep the heap reached
when an error aborts the remainder. -/
def applySeqH (w : World) (b : Nat) : List Mutation → World × Option Err
  | [] => (w, none)
  | m :: ms =>
    match applyMutationH w b m with
    | .ok w1 => applySeqH w1 b ms
    | .error e => (w, some e)

/-- copy.deepcopy(board): a fresh board id, a fresh piece object for every
distinct piece reachable from the board (grid cells, then jail), with the
copies' back-references re-pointed at the fresh board.  Modelled for
heaps in which every reachable piece's back-reference is this board or
None — the situation get_moves is in — since copying a piece that
references a second board would drag that board into the copy as well. -/
def deepcopyH (w : World) (b : Nat) : World × Nat :=
  let bd := w.boardOf b
  let pids := (bd.contents.filterMap id ++ bd.jail.map Prod.snd).dedup
  let copyId : Nat → Nat := fun pid =>
    if pid ∈ pids then w.nextP + pids.indexOf pid else pid
  let b' := w.nextB
  let bd' : BoardH :=
    { shape := bd.shape
      contents := bd.contents.map (Option.map copyId)
      jail := bd.jail.map fun pr => (pr.1, copyId pr.2) }
  let w' : World :=
    { nextB := w.nextB + 1
      boardOf := fun j => if j = b' then bd' else w.boardOf j
      nextP := w.nextP + pids.length
      pieceOf := fun q =>
        if q ≥ w.nextP ∧ q < w.nextP + pids.length then
          let old := w.pieceOf (pids.getD (q - w.nextP) 0)
          { old with board := old.board.map fun x => if x = b then b' else x }
        else w.pieceOf q }
  (w', b')

/-- direct_move (piecemeal.py): remove at the origin, place the origin's
occupant — the real piece object — at the destination.  Defined for
in-bounds origins (board[origin] raises out of bounds otherwise). -/
def directMoveH (w : World) (b : Nat) (origin destination : Point) : List Mutation :=
  [{ op := .REMOVE, point := origin },
   { op := .PLACE, point := destination, payload := ((getItemH w b origin).toOption).getD none }]

/-- Candidate loop of Piece.get_moves in the heap model: for each
candidate, deepcopy the board, apply the sequence to the copy, keep the
candidate unless IllegalBoardState was raised; any other exception
propagates.  All heap effects — including effects a trial has on real
pieces — persist across iterations, as they do in Python. -/
def trialsH (b : Nat) :
    World → List (List Mutation) → List (List Mutation) →
    World × Except Err (List (List Mutation))
  | w, [], acc => (w, .ok acc)
  | w, seq :: rest, acc =>
    let wb := deepcopyH w b
    match applySeqH wb.1 wb.2 seq with
    | (w2, none) => trialsH b w2 rest (acc ++ [seq])
    | (w2, some .illegalBoardState) => trialsH b w2 rest acc
    | (w2, some e) => (w2, .error e)

/-- Generator loop of Piece.get_moves in the heap model: generators are
invoked in order with the piece's (board, place); each generator's
candidates are produced eagerly (as direct_move does) and trialled. -/
def getMovesGensH (b : Nat) (pl : Point) :
    World → List (World → Nat → Point → List (List Mutation)) → List (List Mutation) →
    World × Except Err (List (List Mutation))
  | w, [], acc => (w, .ok acc)
  | w, g :: gs, acc =>
    match trialsH b w (g w b pl) acc with
    | (w1, .ok acc1) => getMovesGensH b pl w1 gs acc1
    | (w1, .error e) => (w1, .error e)

/-- Piece.get_moves (object.py) in the heap model, for a placed piece:
reads the piece's own (board, place) back-reference and runs the
generator loop. -/
def getMovesHeap (w : World) (selfPid : Nat)
    (gens : List (World → Nat → Point → List (List Mutation))) :
    World × Except Err (List (List Mutation)) :=
  match (w.pieceOf selfPid).board, (w.pieceOf selfPid).place with
  | some b, some pl => getMovesGensH b pl w gens []
  | _, _ => (w, .ok [])

/-! ### Bounds and index arithmetic -/

theorem bindE_ok {α β : Type} (a : α) (f : α → Except Err β) :
    (Except.ok a : Except Err α) >>= f = f a := rfl

theorem bindE_error {α β : Type} (e : Err) (f : α → Except Err β) :
    (Except.error e : Except Err α) >>= f = .error e := rfl

/-- Componentwise in-bounds test, `0 ≤ c[i] < shape[i]` on zipped pairs. -/
def inBoundsB (c s : Point) : Bool :=
  (List.zip c s).all fun p => decide (0 ≤ p.1 ∧ p.1 < p.2)

/-- In-bounds as a proposition: componentwise `0 ≤ c[i] < s[i]` with equal
lengths. -/
def InBounds (c s : Point) : Prop :=
  List.Forall₂ (fun a b => 0 ≤ a ∧ a < b) c s

theorem pureE {α : Type} (a : α) : (pure a : Except Err α) = .ok a := rfl

theorem zipAll_nonneg (c : Point) :
    ((List.zip (zeroPt c.length) c).all fun p => decide (p.1 ≤ p.2)) =
      (c.all fun x => decide (0 ≤ x)) := by
  induction c with
  | nil => rfl
  | cons a t ih =>
    simp only [List.length_cons, zeroPt, List.replicate_succ, List.zip_cons_cons,
      List.all_cons]
    rw [show List.replicate t.length (0 : Int) = zeroPt t.length from rfl, ih]

theorem all_and_zip {c s : Point} (h : c.length = s.length) :
    ((c.all fun x => decide (0 ≤ x)) && ((List.zip c s).all fun p => decide (p.1 < p.2))) =
      inBoundsB c s := by
  induction c generalizing s with
  | nil => simp [inBoundsB]
  | cons a t ih =>
    cases s with
    | nil => simp at h
    | cons b u =>
      simp only [List.length_cons, Nat.succ.injEq] at h
      simp only [inBoundsB, List.zip_cons_cons, List.all_cons]
      rw [show decide (0 ≤ a ∧ a < b) = (decide (0 ≤ a) && decide (a < b)) from by
        by_cases h0 : 0 ≤ a <;> by_cases h1 : a < b <;> simp [h0, h1]]
      rw [show ((List.zip t u).all fun p => decide (0 ≤ p.1 ∧ p.1 < p.2)) = inBoundsB t u
        from rfl]
      rw [← ih h]
      cases h0 : decide (0 ≤ a) <;> cases h1 : decide (a < b) <;>
        cases h2 : (t.all fun x => decide (0 ≤ x)) <;>
        cases h3 : ((List.zip t u).all fun p => decide (p.1 < p.2)) <;> rfl

theorem inBoundsB_iff {c s : Point} (h : c.length = s.length) :
    inBoundsB c s = true ↔ InBounds c s := by
  induction c generalizing s with
  | nil =>
    cases s with
    | nil => simp [inBoundsB, InBounds]
    | cons b u => simp at h
  | cons a t ih =>
    cases s with
    | nil => simp at h
    | cons b u =>
      simp only [List.length_cons, Nat.succ.injEq] at h
      rw [InBounds, List.forall₂_cons]
      rw [inBoundsB, List.zip_cons_cons, List.all_cons, Bool.and_eq_true, decide_eq_true_eq]
      rw [show ((List.zip t u).all fun p => decide (0 ≤ p.1 ∧ p.1 < p.2)) = inBoundsB t u
        from rfl]
      rw [ih h]
      exact Iff.rfl

theorem ptLe_zero_shape (shape c : Point) :
    ptLe (zeroPt shape.length) c =
      if c.length = shape.length then .ok (c.all fun x => decide (0 ≤ x))
      else .error .dimension := by
  by_cases h : c.length = shape.length
  · rw [if_pos h, ptLe, if_pos (by simp [zeroPt, h])]
    rw [show shape.length = c.length from h.symm, zipAll_nonneg]
  · rw [if_neg h, ptLe, if_neg]
    simp only [zeroPt, List.length_replicate]
    exact fun hh => h hh.symm

theorem ptLe_zero_self (c : Point) :
    ptLe (zeroPt c.length) c = .ok (c.all fun x => decide (0 ≤ x)) := by
  simpa using ptLe_zero_shape c c

theorem tensorContains_of_len {shape c : Point} (h : c.length = shape.length) :
    tensorContains shape c = .ok (inBoundsB c shape) := by
  rw [tensorContains, ptLe_zero_shape, if_pos h, bindE_ok]
  by_cases hnn : (c.all fun x => decide (0 ≤ x)) = true
  · rw [if_pos hnn, ptLt, if_pos h]
    have := all_and_zip h
    rw [hnn, Bool.true_and] at this
    rw [this]
  · rw [if_neg hnn, pureE]
    have := all_and_zip h
    rw [Bool.not_eq_true] at hnn
    rw [hnn, Bool.false_and] at this
    rw [← this]

theorem tensorContains_of_mismatch {shape c : Point} (h : c.length ≠ shape.length) :
    tensorContains shape c = .error .dimension := by
  rw [tensorContains, ptLe_zero_shape, if_neg h, bindE_error]

theorem boardContains_of_len {shape c : Point} (h : c.length = shape.length) :
    boardContains shape c = .ok (inBoundsB c shape) := by
  rw [boardContains, ptLe_zero_self, bindE_ok]
  by_cases hnn : (c.all fun x => decide (0 ≤ x)) = true
  · rw [if_pos hnn, ptLt, if_pos h]
    have := all_and_zip h
    rw [hnn, Bool.true_and] at this
    rw [this]
  · rw [if_neg hnn, pureE]
    have := all_and_zip h
    rw [Bool.not_eq_true] at hnn
    rw [hnn, Bool.false_and] at this
    rw [← this]

theorem boardContains_of_neg {shape c : Point}
    (h : (c.all fun x => decide (0 ≤ x)) = false) :
    boardContains shape c = .ok false := by
  rw [boardContains, ptLe_zero_self, bindE_ok, if_neg (by simp [h])]
  rfl

theorem boardContains_of_mismatch_nonneg {shape c : Point}
    (h : c.length ≠ shape.length) (hnn : (c.all fun x => decide (0 ≤ x)) = true) :
    boardContains shape c = .error .dimension := by
  rw [boardContains, ptLe_zero_self, bindE_ok, if_pos hnn, ptLt, if_neg h]

/-- Row-major linearization in closed form:
`index = Σ c[i] * Π shape[i+1..]`. -/
def rmIndex : List Int → List Int → Int
  | c :: cs, _ :: ss => c * ss.prod + rmIndex cs ss
  | _, _ => 0

theorem rmIndex_bounds {c s : List Int} (h : InBounds c s) :
    0 ≤ rmIndex c s ∧ rmIndex c s < s.prod := by
  induction h with
  | nil => simp [rmIndex]
  | @cons a b cs ss hab htail ih =>
    obtain ⟨hnn, hlt⟩ := ih
    have hpos : 0 < ss.prod := lt_of_le_of_lt hnn hlt
    constructor
    · have : 0 ≤ a * ss.prod := mul_nonneg hab.1 (le_of_lt hpos)
      simp only [rmIndex]
      linarith
    · have h1 : rmIndex (a :: cs) (b :: ss) < (a + 1) * ss.prod := by
        simp only [rmIndex, add_mul, one_mul]
        linarith
      have h2 : (a + 1) * ss.prod ≤ b * ss.prod :=
        mul_le_mul_of_nonneg_right (by omega) (le_of_lt hpos)
      calc rmIndex (a :: cs) (b :: ss) < (a + 1) * ss.prod := h1
        _ ≤ b * ss.prod := h2
        _ = (b :: ss).prod := (List.prod_cons).symm

theorem rmIndex_inj {c c' s : List Int} (h : InBounds c s) (h' : InBounds c' s) :
    rmIndex c s = rmIndex c' s → c = c' := by
  induction s generalizing c c' with
  | nil =>
    cases h; cases h'
    intro _; rfl
  | cons b ss ih =>
    cases h with
    | cons hab htail =>
      cases h' with
      | cons hab' htail' =>
        rename_i a cs a' cs'
        intro he
        obtain ⟨hnn, hlt⟩ := rmIndex_bounds htail
        obtain ⟨hnn', hlt'⟩ := rmIndex_bounds htail'
        have hpos : 0 < ss.prod := lt_of_le_of_lt hnn hlt
        have haa : a = a' := by
          rcases lt_trichotomy a a' with hl | hl | hl
          · exfalso
            have : (a + 1) * ss.prod ≤ a' * ss.prod :=
              mul_le_mul_of_nonneg_right (by omega) (le_of_lt hpos)
            simp only [rmIndex, add_mul, one_mul] at he this
            linarith
          · exact hl
          · exfalso
            have : (a' + 1) * ss.prod ≤ a * ss.prod :=
              mul_le_mul_of_nonneg_right (by omega) (le_of_lt hpos)
            simp only [rmIndex, add_mul, one_mul] at he this
            linarith
        subst haa
        have : rmIndex cs ss = rmIndex cs' ss := by
          simp only [rmIndex] at he
          exact add_left_cancel he
        rw [ih htail htail' this]

/-- Value computed by the reduce() part of Tensor._index. -/
def idxCore (c s : List Int) : Int :=
  match (List.zip c s).reverse with
  | [] => 0
  | p :: ps => (List.foldl reduceStep p ps).1

theorem foldl_reduceStep_snd (p : Int × Int) (ps : List (Int × Int)) :
    (List.foldl reduceStep p ps).2 = p.2 * (ps.map Prod.snd).prod := by
  induction ps generalizing p with
  | nil => simp
  | cons y ys ih =>
    rw [List.foldl_cons, ih]
    simp [reduceStep, mul_assoc]

theorem idxCore_cons {a b : Int} {c s : List Int} (h : c.length = s.length) :
    idxCore (a :: c) (b :: s) = a * s.prod + idxCore c s := by
  cases hz : (List.zip c s).reverse with
  | nil =>
    have hznil : List.zip c s = [] := by
      cases hcs : List.zip c s with
      | nil => rfl
      | cons q qs => rw [hcs] at hz; simp at hz
    have hc : c = [] := by
      cases c with
      | nil => rfl
      | cons x xs =>
        cases s with
        | nil => simp at h
        | cons y ys => simp [List.zip_cons_cons] at hznil
    subst hc
    have hs : s = [] := by
      cases s with
      | nil => rfl
      | cons x xs => simp at h
    subst hs
    simp [idxCore]
  | cons p ps =>
    have h1 : (List.zip (a :: c) (b :: s)).reverse = p :: (ps ++ [(a, b)]) := by
      rw [List.zip_cons_cons, List.reverse_cons, hz, List.cons_append]
    have h2 : idxCore (a :: c) (b :: s) = (List.foldl reduceStep p (ps ++ [(a, b)])).1 := by
      unfold idxCore
      rw [h1]
    have h3 : idxCore c s = (List.foldl reduceStep p ps).1 := by
      unfold idxCore
      rw [hz]
    have hmap : ((p :: ps).map Prod.snd).prod = s.prod := by
      rw [← hz, List.map_reverse, List.prod_reverse]
      rw [List.map_snd_zip c s (le_of_eq h.symm)]
    rw [h2, h3, List.foldl_append]
    simp only [List.foldl_cons, List.foldl_nil, reduceStep]
    rw [foldl_reduceStep_snd]
    have h4 : p.2 * (ps.map Prod.snd).prod = ((p :: ps).map Prod.snd).prod := by
      simp
    rw [h4, hmap]
    ring

theorem idxCore_eq_rmIndex {c s : List Int} (h : c.length = s.length) :
    idxCore c s = rmIndex c s := by
  induction c generalizing s with
  | nil =>
    cases s with
    | nil => rfl
    | cons b u => simp at h
  | cons a t ih =>
    cases s with
    | nil => simp at h
    | cons b u =>
      simp only [List.length_cons, Nat.succ.injEq] at h
      rw [idxCore_cons h, ih h, rmIndex]

theorem tensorIndex_of_inb {c s : Point} (h : InBounds c s) (hne : c ≠ []) :
    tensorIndex s c = .ok (rmIndex c s) := by
  have hlen : c.length = s.length := h.length_eq
  rw [tensorIndex, tensorContains_of_len hlen, bindE_ok,
    if_pos ((inBoundsB_iff hlen).mpr h)]
  have hzne : List.zip c s ≠ [] := by
    cases c with
    | nil => exact absurd rfl hne
    | cons a t =>
      cases s with
      | nil => simp at hlen
      | cons b u => simp
  cases hz : (List.zip c s).reverse with
  | nil =>
    exfalso
    apply hzne
    cases hcs : List.zip c s with
    | nil => rfl
    | cons q qs => rw [hcs] at hz; simp at hz
  | cons p ps =>
    have hcore : idxCore c s = (List.foldl reduceStep p ps).1 := by
      unfold idxCore
      rw [hz]
    show Except.ok (List.foldl reduceStep p ps).1 = Except.ok (rmIndex c s)
    rw [← hcore, idxCore_eq_rmIndex hlen]

theorem tensorIndex_ok_inb {c s : Point} {i : Int} (h : tensorIndex s c = .ok i) :
    InBounds c s ∧ c ≠ [] ∧ i = rmIndex c s := by
  by_cases hlen : c.length = s.length
  · rw [tensorIndex, tensorContains_of_len hlen, bindE_ok] at h
    by_cases hb : inBoundsB c s = true
    · have hinb : InBounds c s := (inBoundsB_iff hlen).mp hb
      rw [if_pos hb] at h
      cases hz : (List.zip c s).reverse with
      | nil => rw [hz] at h; cases h
      | cons p ps =>
        rw [hz] at h
        have hne : c ≠ [] := by
          intro hc
          subst hc
          simp at hz
        refine ⟨hinb, hne, ?_⟩
        have h1 : (Except.ok (List.foldl reduceStep p ps).1 : Except Err Int) = .ok i := h
        have h2 : idxCore c s = (List.foldl reduceStep p ps).1 := by
          unfold idxCore
          rw [hz]
        rw [← Except.ok.inj h1, ← h2, idxCore_eq_rmIndex hlen]
    · rw [if_neg hb] at h; cases h
  · rw [tensorIndex, tensorContains_of_mismatch hlen, bindE_error] at h
    cases h

theorem getD_set_self {α : Type} (l : List α) (i : Nat) (v d : α) (h : i < l.length) :
    (l.set i v).getD i d = v := by
  induction l generalizing i with
  | nil => simp at h
  | cons a t ih =>
    cases i with
    | zero => rfl
    | succ j =>
      simp only [List.length_cons] at h
      simpa [List.set, List.getD] using ih j (by omega)

theorem getD_set_ne {α : Type} (l : List α) (i j : Nat) (v d : α) (h : i ≠ j) :
    (l.set i v).getD j d = l.getD j d := by
  induction l generalizing i j with
  | nil => rfl
  | cons a t ih =>
    cases i with
    | zero =>
      cases j with
      | zero => exact absurd rfl h
      | succ k => rfl
    | succ i' =>
      cases j with
      | zero => rfl
      | succ k => simpa [List.set, List.getD] using ih i' k (by omega)

theorem set_getD_self {α : Type} (l : List α) (i : Nat) (d : α) :
    l.set i (l.getD i d) = l := by
  induction l generalizing i with
  | nil => rfl
  | cons a t ih =>
    cases i with
    | zero => rfl
    | succ j => simpa [List.set, List.getD] using ih j

/-! ### Structural facts about board states -/

/-- Well-formedness of a constructed board: a non-empty shape of positive
extents and a flat buffer of exactly `prod shape` cells. -/
def WF (s : State) : Prop :=
  s.shape ≠ [] ∧ (∀ x ∈ s.shape, 0 < x) ∧ s.contents.length = s.shape.prod.toNat

theorem updateLoc_shape (s : State) (pid : Nat) (pl : Option Point) :
    (updateLoc s pid pl).shape = s.shape := rfl

theorem updateLoc_contents (s : State) (pid : Nat) (pl : Option Point) :
    (updateLoc s pid pl).contents = s.contents := rfl

theorem updateLoc_jail (s : State) (pid : Nat) (pl : Option Point) :
    (updateLoc s pid pl).jail = s.jail := rfl

theorem jailAdd_shape (s : State) (p pid : Nat) : (jailAdd s p pid).shape = s.shape := rfl

theorem jailAdd_contents (s : State) (p pid : Nat) :
    (jailAdd s p pid).contents = s.contents := rfl

theorem jailAdd_pieces (s : State) (p pid : Nat) : (jailAdd s p pid).pieces = s.pieces := rfl

theorem getItem_of_index {s : State} {c : Point} {i : Int}
    (h : tensorIndex s.shape c = .ok i) :
    getItem s c = .ok (s.contents.getD i.toNat none) := by
  rw [getItem, h, bindE_ok, pureE]

theorem getItem_of_index_error {s : State} {c : Point} {e : Err}
    (h : tensorIndex s.shape c = .error e) :
    getItem s c = .error e := by
  rw [getItem, h, bindE_error]

theorem getItem_ok_index {s : State} {c : Point} {v : Option Nat}
    (h : getItem s c = .ok v) :
    tensorIndex s.shape c = .ok (rmIndex c s.shape) ∧
      v = s.contents.getD (rmIndex c s.shape).toNat none := by
  rw [getItem] at h
  cases hidx : tensorIndex s.shape c with
  | error e => rw [hidx, bindE_error] at h; cases h
  | ok i =>
    obtain ⟨hinb, hne, hi⟩ := tensorIndex_ok_inb hidx
    subst hi
    rw [hidx, bindE_ok, pureE] at h
    exact ⟨rfl, (Except.ok.inj h).symm⟩

/-- Index of an in-bounds point is inside the buffer of a well-formed
board. -/
theorem index_lt_length {s : State} {c : Point} {i : Int} (hWF : WF s)
    (h : tensorIndex s.shape c = .ok i) : i.toNat < s.contents.length := by
  obtain ⟨hinb, hne, hi⟩ := tensorIndex_ok_inb h
  obtain ⟨hnn, hlt⟩ := rmIndex_bounds hinb
  rw [hWF.2.2]
  omega

/-- Distinct in-bounds points have distinct buffer indices. -/
theorem index_ne_of_ne {s : Point} {c c' : Point} {i i' : Int}
    (h : tensorIndex s c = .ok i) (h' : tensorIndex s c' = .ok i')
    (hne : c ≠ c') : i.toNat ≠ i'.toNat := by
  obtain ⟨hinb, hcne, hi⟩ := tensorIndex_ok_inb h
  obtain ⟨hinb', hcne', hi'⟩ := tensorIndex_ok_inb h'
  obtain ⟨hnn, _⟩ := rmIndex_bounds hinb
  obtain ⟨hnn', _⟩ := rmIndex_bounds hinb'
  intro htn
  apply hne
  apply rmIndex_inj hinb hinb'
  omega

theorem setT_of_index {s : State} {c : Point} {i : Int}
    (h : tensorIndex s.shape c = .ok i) (v : Option Nat) :
    setT s c v = .ok { s with contents := s.contents.set i.toNat v } := by
  rw [setT, h, bindE_ok, pureE]

/-- Board.__setitem__ at an occupied cell, placing a piece. -/
theorem setItem_some_some {s : State} {k : Point} {i : Int} {occ vid : Nat}
    (hidx : tensorIndex s.shape k = .ok i)
    (hocc : s.contents.getD i.toNat none = some occ) :
    setItem s k (some vid) =
      .ok (updateLoc
        { updateLoc s occ none with contents := s.contents.set i.toNat (some vid) }
        vid (some k)) := by
  simp only [setItem, getItem_of_index hidx, bindE_ok, hocc]
  simp only [setT, updateLoc_shape, hidx, bindE_ok, pureE]
  rfl

/-- Board.__setitem__ at an empty cell, placing a piece. -/
theorem setItem_none_some {s : State} {k : Point} {i : Int} {vid : Nat}
    (hidx : tensorIndex s.shape k = .ok i)
    (hocc : s.contents.getD i.toNat none = none) :
    setItem s k (some vid) =
      .ok (updateLoc { s with contents := s.contents.set i.toNat (some vid) }
        vid (some k)) := by
  simp only [setItem, getItem_of_index hidx, bindE_ok, hocc]
  simp only [setT, hidx, bindE_ok, pureE]

/-- Board.__setitem__ at an occupied cell, clearing it. -/
theorem setItem_some_none {s : State} {k : Point} {i : Int} {occ : Nat}
    (hidx : tensorIndex s.shape k = .ok i)
    (hocc : s.contents.getD i.toNat none = some occ) :
    setItem s k none =
      .ok { updateLoc s occ none with contents := s.contents.set i.toNat none } := by
  simp only [setItem, getItem_of_index hidx, bindE_ok, hocc]
  simp only [setT, updateLoc_shape, hidx, bindE_ok, pureE]
  rfl

/-- Board.__setitem__ at an empty cell, clearing it. -/
theorem setItem_none_none {s : State} {k : Point} {i : Int}
    (hidx : tensorIndex s.shape k = .ok i)
    (hocc : s.contents.getD i.toNat none = none) :
    setItem s k none = .ok { s with contents := s.contents.set i.toNat none } := by
  simp only [setItem, getItem_of_index hidx, bindE_ok, hocc]
  simp only [setT, hidx, bindE_ok, pureE]

/-- Board.__delitem__ at an occupied cell. -/
theorem delItem_some {s : State} {k : Point} {i : Int} {occ : Nat}
    (hidx : tensorIndex s.shape k = .ok i)
    (hocc : s.contents.getD i.toNat none = some occ) :
    delItem s k =
      .ok { updateLoc s occ none with contents := s.contents.set i.toNat none } := by
  simp only [delItem, getItem_of_index hidx, bindE_ok, hocc]
  simp only [setT, updateLoc_shape, hidx, bindE_ok, pureE]
  rfl

/-- Board.__delitem__ at an empty cell. -/
theorem delItem_none {s : State} {k : Point} {i : Int}
    (hidx : tensorIndex s.shape k = .ok i)
    (hocc : s.contents.getD i.toNat none = none) :
    delItem s k = .ok { s with contents := s.contents.set i.toNat none } := by
  simp only [delItem, getItem_of_index hidx, bindE_ok, hocc]
  simp only [setT, hidx, bindE_ok, pureE]

/-! ### Characterization of one tagged-mutation application -/

theorem applyMutation_index_error {s : State} {pt : Point} {e : Err}
    (hidx : tensorIndex s.shape pt = .error e) (op : Operation) (pay : Option Nat) :
    applyMutation s { op := op, point := pt, payload := pay } = .error e := by
  simp only [applyMutation, getItem_of_index_error hidx, bindE_error]

/-- REMOVE at an occupied point: no jail access, the occupant is detached
and the cell cleared. -/
theorem applyMutation_remove_some {s : State} {pt : Point} {i : Int} {occ : Nat}
    (hidx : tensorIndex s.shape pt = .ok i)
    (hocc : s.contents.getD i.toNat none = some occ) (pay : Option Nat) :
    applyMutation s { op := .REMOVE, point := pt, payload := pay } =
      .ok { updateLoc s occ none with contents := s.contents.set i.toNat none } := by
  simp [applyMutation, getItem_of_index hidx, hocc, inCaptureOps, inRemoveOps,
    bindE_ok, pureE, delItem_some hidx hocc, -List.getD_eq_getElem?_getD]

/-- REMOVE at an empty in-bounds point succeeds and is a no-op. -/
theorem applyMutation_remove_none {s : State} {pt : Point} {i : Int}
    (hidx : tensorIndex s.shape pt = .ok i)
    (hocc : s.contents.getD i.toNat none = none) (pay : Option Nat) :
    applyMutation s { op := .REMOVE, point := pt, payload := pay } = .ok s := by
  have hset : s.contents.set i.toNat none = s.contents := by
    conv_lhs => rw [← hocc]
    rw [set_getD_self]
  have hstate : { s with contents := s.contents.set i.toNat none } = s := by
    rw [hset]
  simp [applyMutation, getItem_of_index hidx, hocc, inCaptureOps, inRemoveOps,
    bindE_ok, pureE, delItem_none hidx hocc, hstate, -List.getD_eq_getElem?_getD]

/-- CAPTURE at an empty in-bounds point succeeds and is a no-op (the jail
guard sees an empty cell and the deletion rewrites an empty cell). -/
theorem applyMutation_capture_none {s : State} {pt : Point} {i : Int}
    (hidx : tensorIndex s.shape pt = .ok i)
    (hocc : s.contents.getD i.toNat none = none) (pay : Option Nat) :
    applyMutation s { op := .CAPTURE, point := pt, payload := pay } = .ok s := by
  have hset : s.contents.set i.toNat none = s.contents := by
    conv_lhs => rw [← hocc]
    rw [set_getD_self]
  have hstate : { s with contents := s.contents.set i.toNat none } = s := by
    rw [hset]
  simp [applyMutation, getItem_of_index hidx, hocc, inCaptureOps, inRemoveOps,
    bindE_ok, pureE, delItem_none hidx hocc, hstate, -List.getD_eq_getElem?_getD]

/-- CAPTURE at an occupied point with a payload piece: the occupant goes to
the jail keyed by the payload's owner, then the cell is cleared. -/
theorem applyMutation_capture_some {s : State} {pt : Point} {i : Int} {occ pay : Nat}
    (hidx : tensorIndex s.shape pt = .ok i)
    (hocc : s.contents.getD i.toNat none = some occ) :
    applyMutation s { op := .CAPTURE, point := pt, payload := some pay } =
      .ok { updateLoc (jailAdd s ((s.pieces pay).player) occ) occ none with
              contents := s.contents.set i.toNat none } := by
  have hidx1 : tensorIndex (jailAdd s ((s.pieces pay).player) occ).shape pt = .ok i := hidx
  have hocc1 : (jailAdd s ((s.pieces pay).player) occ).contents.getD i.toNat none = some occ :=
    hocc
  simp [applyMutation, getItem_of_index hidx, hocc, inCaptureOps, inRemoveOps,
    bindE_ok, pureE, delItem_some hidx1 hocc1, -List.getD_eq_getElem?_getD]
  rfl

/-- CAPTURE at an occupied point with payload None raises AttributeError on
`mutation.payload.player`. -/
theorem applyMutation_capture_some_none {s : State} {pt : Point} {i : Int} {occ : Nat}
    (hidx : tensorIndex s.shape pt = .ok i)
    (hocc : s.contents.getD i.toNat none = some occ) :
    applyMutation s { op := .CAPTURE, point := pt, payload := none } =
      .error .attrError := by
  simp [applyMutation, getItem_of_index hidx, hocc, inCaptureOps, bindE_ok, bindE_error,
    -List.getD_eq_getElem?_getD]

/-- PLACE at an occupied point with payload None raises AttributeError. -/
theorem applyMutation_place_some_none {s : State} {pt : Point} {i : Int} {occ : Nat}
    (hidx : tensorIndex s.shape pt = .ok i)
    (hocc : s.contents.getD i.toNat none = some occ) :
    applyMutation s { op := .PLACE, point := pt, payload := none } =
      .error .attrError := by
  simp [applyMutation, getItem_of_index hidx, hocc, inCaptureOps, bindE_ok, bindE_error,
    -List.getD_eq_getElem?_getD]

/-- PLACE at an occupied point with a payload piece: the occupant goes to
the jail keyed by the payload's owner, then the payload is written via
Board.__setitem__ (detaching the occupant, attaching the payload). -/
theorem applyMutation_place_some {s : State} {pt : Point} {i : Int} {occ pay : Nat}
    (hidx : tensorIndex s.shape pt = .ok i)
    (hocc : s.contents.getD i.toNat none = some occ) :
    applyMutation s { op := .PLACE, point := pt, payload := some pay } =
      .ok (updateLoc
        { updateLoc (jailAdd s ((s.pieces pay).player) occ) occ none with
            contents := s.contents.set i.toNat (some pay) }
        pay (some pt)) := by
  have hidx1 : tensorIndex (jailAdd s ((s.pieces pay).player) occ).shape pt = .ok i := hidx
  have hocc1 : (jailAdd s ((s.pieces pay).player) occ).contents.getD i.toNat none = some occ :=
    hocc
  simp [applyMutation, getItem_of_index hidx, hocc, inCaptureOps, inRemoveOps,
    bindE_ok, pureE, setItem_some_some hidx1 hocc1, -List.getD_eq_getElem?_getD]
  rfl

/-- PLACE at an empty point with a payload piece: plain attach. -/
theorem applyMutation_place_none_some {s : State} {pt : Point} {i : Int} {pay : Nat}
    (hidx : tensorIndex s.shape pt = .ok i)
    (hocc : s.contents.getD i.toNat none = none) :
    applyMutation s { op := .PLACE, point := pt, payload := some pay } =
      .ok (updateLoc { s with contents := s.contents.set i.toNat (some pay) }
        pay (some pt)) := by
  simp [applyMutation, getItem_of_index hidx, hocc, inCaptureOps, inRemoveOps,
    bindE_ok, pureE, setItem_none_some hidx hocc, -List.getD_eq_getElem?_getD]

/-- PLACE at an empty point with payload None writes None over None: a
no-op. -/
theorem applyMutation_place_none_none {s : State} {pt : Point} {i : Int}
    (hidx : tensorIndex s.shape pt = .ok i)
    (hocc : s.contents.getD i.toNat none = none) :
    applyMutation s { op := .PLACE, point := pt, payload := none } = .ok s := by
  have hset : s.contents.set i.toNat none = s.contents := by
    conv_lhs => rw [← hocc]
    rw [set_getD_self]
  have hstate : { s with contents := s.contents.set i.toNat none } = s := by
    rw [hset]
  simp [applyMutation, getItem_of_index hidx, hocc, inCaptureOps, inRemoveOps,
    bindE_ok, pureE, setItem_none_none hidx hocc, hstate, -List.getD_eq_getElem?_getD]

/-! ### Concrete fixtures used by witnesses and counterexamples -/

/-- Piece store in which piece n belongs to player n. -/
def pieces0 : Nat → Piece := fun n => { player := n }

/-- Empty 1-dimensional board with two cells. -/
def sEmpty2 : State := mkBoard [2] pieces0

/-- Two-cell board with piece 0 (player 0) standing at [0]. -/
def sOcc2 : State :=
  { shape := [2], contents := [some 0, none], jail := fun _ => ∅, pieces := pieces0 }

/-! ### Claim C10 -/

/-- C10: applying a CAPTURE or REMOVE mutation whose point is in bounds but
unoccupied succeeds without raising and is a no-op on board state — the
result is the very same state, so every cell keeps its occupant and every
jail set is unchanged. -/
theorem capture_remove_empty_noop (s : State) (pt : Point) (op : Operation)
    (pay : Option Nat) (hop : op = .REMOVE ∨ op = .CAPTURE)
    (hempty : getItem s pt = .ok none) :
    applyMutation s { op := op, point := pt, payload := pay } = .ok s := by
  obtain ⟨hidx, hval⟩ := getItem_ok_index hempty
  rcases hop with hop | hop <;> subst hop
  · exact applyMutation_remove_none hidx hval.symm pay
  · exact applyMutation_capture_none hidx hval.symm pay

/-- Witness for C10 at a concrete empty cell of a concrete board. -/
theorem capture_remove_empty_noop_witness :
    getItem sEmpty2 [1] = .ok none ∧
      applyMutation sEmpty2 { op := Operation.CAPTURE, point := [1], payload := none } =
        .ok sEmpty2 :=
  ⟨rfl, capture_remove_empty_noop sEmpty2 [1] .CAPTURE none (Or.inr rfl) rfl⟩

/-! ### Claim C3 -/

/-- C3: applying a single tagged mutation at an in-bounds occupied point:
PLACE adds the prior occupant to the jail of the payload's owner and then
writes the payload at the point; REMOVE clears the point's occupant
without touching any jail; CAPTURE adds the occupant to the jail of the
capturing owner identified by the payload, clears the point, and places no
new piece anywhere. -/
theorem apply_tagged_mutation_semantics (s : State) (pt : Point) (occ pay : Nat)
    (hWF : WF s) (hocc : getItem s pt = .ok (some occ)) :
    (∃ s1, applyMutation s { op := .PLACE, point := pt, payload := some pay } = .ok s1 ∧
      s1.jail ((s.pieces pay).player) = insert occ (s.jail ((s.pieces pay).player)) ∧
      (∀ q, q ≠ (s.pieces pay).player → s1.jail q = s.jail q) ∧
      getItem s1 pt = .ok (some pay)) ∧
    (∀ payload, ∃ s2,
      applyMutation s { op := .REMOVE, point := pt, payload := payload } = .ok s2 ∧
      getItem s2 pt = .ok none ∧ (∀ q, s2.jail q = s.jail q)) ∧
    (∃ s3, applyMutation s { op := .CAPTURE, point := pt, payload := some pay } = .ok s3 ∧
      s3.jail ((s.pieces pay).player) = insert occ (s.jail ((s.pieces pay).player)) ∧
      (∀ q, q ≠ (s.pieces pay).player → s3.jail q = s.jail q) ∧
      getItem s3 pt = .ok none ∧
      (∀ r v, getItem s3 r = .ok (some v) → getItem s r = .ok (some v))) := by
  obtain ⟨hidx, hval⟩ := getItem_ok_index hocc
  have hgd : s.contents.getD (rmIndex pt s.shape).toNat none = some occ := hval.symm
  have hlt : (rmIndex pt s.shape).toNat < s.contents.length := index_lt_length hWF hidx
  refine ⟨?_, ?_, ?_⟩
  · refine ⟨_, applyMutation_place_some hidx hgd, ?_, ?_, ?_⟩
    · simp [updateLoc, jailAdd]
    · intro q hq
      simp [updateLoc, jailAdd, hq]
    · have hidx1 : tensorIndex
          (updateLoc
            { updateLoc (jailAdd s ((s.pieces pay).player) occ) occ none with
                contents := s.contents.set (rmIndex pt s.shape).toNat (some pay) }
            pay (some pt)).shape pt = .ok (rmIndex pt s.shape) := hidx
      rw [getItem_of_index hidx1]
      show Except.ok ((s.contents.set (rmIndex pt s.shape).toNat (some pay)).getD
        (rmIndex pt s.shape).toNat none) = _
      rw [getD_set_self _ _ _ _ hlt]
  · intro payload
    refine ⟨_, applyMutation_remove_some hidx hgd payload, ?_, ?_⟩
    · have hidx1 : tensorIndex
          ({ updateLoc s occ none with
              contents := s.contents.set (rmIndex pt s.shape).toNat none }).shape pt =
          .ok (rmIndex pt s.shape) := hidx
      rw [getItem_of_index hidx1]
      show Except.ok ((s.contents.set (rmIndex pt s.shape).toNat none).getD
        (rmIndex pt s.shape).toNat none) = _
      rw [getD_set_self _ _ _ _ hlt]
    · intro q
      rfl
  · refine ⟨_, applyMutation_capture_some hidx hgd, ?_, ?_, ?_, ?_⟩
    · simp [updateLoc, jailAdd]
    · intro q hq
      simp [updateLoc, jailAdd, hq]
    · have hidx1 : tensorIndex
          ({ updateLoc (jailAdd s ((s.pieces pay).player) occ) occ none with
              contents := s.contents.set (rmIndex pt s.shape).toNat none }).shape pt =
          .ok (rmIndex pt s.shape) := hidx
      rw [getItem_of_index hidx1]
      show Except.ok ((s.contents.set (rmIndex pt s.shape).toNat none).getD
        (rmIndex pt s.shape).toNat none) = _
      rw [getD_set_self _ _ _ _ hlt]
    · intro r v hr
      obtain ⟨hidxr, hvalr⟩ := getItem_ok_index hr
      have hidxr' : tensorIndex s.shape r = .ok (rmIndex r s.shape) := hidxr
      have hvalr' : some v =
          (s.contents.set (rmIndex pt s.shape).toNat none).getD
            (rmIndex r s.shape).toNat none := hvalr
      rw [getItem_of_index hidxr']
      by_cases hij : (rmIndex r s.shape).toNat = (rmIndex pt s.shape).toNat
      · exfalso
        rw [hij, getD_set_self _ _ _ _ hlt] at hvalr'
        cases hvalr'
      · rw [getD_set_ne _ _ _ _ _ (fun hh => hij hh.symm)] at hvalr'
        rw [← hvalr']

/-- Witness for C3 on a concrete occupied board. -/
theorem apply_tagged_mutation_semantics_witness :
    WF sOcc2 ∧ getItem sOcc2 [0] = .ok (some 0) ∧
      (∃ s3, applyMutation sOcc2 { op := .CAPTURE, point := [0], payload := some 1 } = .ok s3 ∧
        s3.jail ((sOcc2.pieces 1).player) = insert 0 (sOcc2.jail ((sOcc2.pieces 1).player)) ∧
        (∀ q, q ≠ (sOcc2.pieces 1).player → s3.jail q = sOcc2.jail q) ∧
        getItem s3 [0] = .ok none ∧
        (∀ r v, getItem s3 r = .ok (some v) → getItem sOcc2 r = .ok (some v))) :=
  ⟨⟨by decide, by decide, by decide⟩, rfl,
    (apply_tagged_mutation_semantics sOcc2 [0] 0 1 ⟨by decide, by decide, by decide⟩ rfl).2.2⟩

/-! ### Claim C5 -/

/-- C5: when a mutation inside a sequence raises, Board.apply propagates
the error, the effects of the earlier mutations remain in place (the state
reached after the prefix is the final state), and the mutations after the
failing one are not applied — sequences are not transactional. -/
theorem applySeq_aborts_nontransactional (s s1 : State) (pre rest : List Mutation)
    (m : Mutation) (e : Err)
    (hpre : applySeq s pre = (s1, none)) (hm : applyMutation s1 m = .error e) :
    applySeq s (pre ++ m :: rest) = (s1, some e) := by
  induction pre generalizing s with
  | nil =>
    have hs : s = s1 := congrArg Prod.fst hpre
    subst hs
    rw [List.nil_append]
    show (match applyMutation s m with
      | .ok s' => applySeq s' rest
      | .error e' => (s, some e')) = (s, some e)
    rw [hm]
  | cons m0 pre ih =>
    rw [List.cons_append]
    cases ha : applyMutation s m0 with
    | ok s0 =>
      have hpre0 : applySeq s0 pre = (s1, none) := by
        rw [applySeq, ha] at hpre
        exact hpre
      show (match applyMutation s m0 with
        | .ok s' => applySeq s' (pre ++ m :: rest)
        | .error e' => (s, some e')) = (s1, some e)
      rw [ha]
      exact ih s0 hpre0
    | error e0 =>
      exfalso
      rw [applySeq, ha] at hpre
      have : (some e0 : Option Err) = none := congrArg Prod.snd hpre
      cases this

/-- Mutations of the C5 witness: a legal removal, then an out-of-bounds
removal, then a placement that is never reached. -/
def mW1 : Mutation := { op := .REMOVE, point := [0] }

def mW2 : Mutation := { op := .REMOVE, point := [5] }

def mW3 : Mutation := { op := .PLACE, point := [0], payload := some 0 }

/-- Witness for C5: the out-of-bounds second mutation aborts the sequence,
keeping the state reached after the first mutation. -/
theorem applySeq_aborts_witness :
    applySeq sOcc2 [mW1] = ((applySeq sOcc2 [mW1]).1, none) ∧
      applyMutation (applySeq sOcc2 [mW1]).1 mW2 = .error .outOfBounds ∧
      applySeq sOcc2 ([mW1] ++ mW2 :: [mW3]) =
        ((applySeq sOcc2 [mW1]).1, some Err.outOfBounds) :=
  ⟨rfl, rfl,
    applySeq_aborts_nontransactional sOcc2 (applySeq sOcc2 [mW1]).1 [mW1] [mW3] mW2
      .outOfBounds rfl rfl⟩

/-! ### Claim C8 -/

/-- C8 (amended): every operation that takes a piece off a board cell —
deleting the cell, overwriting the cell with another piece, or applying a
REMOVE, CAPTURE, or displacing PLACE mutation — leaves that piece's
back-reference with coordinate None but with the board half still naming
the board that removed it: the recorded location is (that board, None),
not (None, None). -/
theorem removal_backreference (s : State) (k : Point) (occ : Nat)
    (hocc : getItem s k = .ok (some occ)) :
    (∀ s', delItem s k = .ok s' →
        (s'.pieces occ).board = some () ∧ (s'.pieces occ).place = none) ∧
    (∀ vid s', vid ≠ occ → setItem s k (some vid) = .ok s' →
        (s'.pieces occ).board = some () ∧ (s'.pieces occ).place = none) ∧
    (∀ pay s', applyMutation s { op := .REMOVE, point := k, payload := pay } = .ok s' →
        (s'.pieces occ).board = some () ∧ (s'.pieces occ).place = none) ∧
    (∀ pay s', applyMutation s { op := .CAPTURE, point := k, payload := some pay } = .ok s' →
        (s'.pieces occ).board = some () ∧ (s'.pieces occ).place = none) ∧
    (∀ pay s', pay ≠ occ →
        applyMutation s { op := .PLACE, point := k, payload := some pay } = .ok s' →
        (s'.pieces occ).board = some () ∧ (s'.pieces occ).place = none) := by
  obtain ⟨hidx, hval⟩ := getItem_ok_index hocc
  have hgd : s.contents.getD (rmIndex k s.shape).toNat none = some occ := hval.symm
  refine ⟨?_, ?_, ?_, ?_, ?_⟩
  · intro s' h
    rw [delItem_some hidx hgd] at h
    cases h
    constructor <;> simp [updateLoc]
  · intro vid s' hne h
    rw [setItem_some_some hidx hgd] at h
    cases h
    constructor <;> simp [updateLoc, Ne.symm hne]
  · intro pay s' h
    rw [applyMutation_remove_some hidx hgd pay] at h
    cases h
    constructor <;> simp [updateLoc]
  · intro pay s' h
    rw [applyMutation_capture_some hidx hgd] at h
    cases h
    constructor <;> simp [updateLoc, jailAdd]
  · intro pay s' hne h
    rw [applyMutation_place_some hidx hgd] at h
    cases h
    constructor <;> simp [updateLoc, jailAdd, Ne.symm hne]

/-- Counterexample for C8 as stated: after deleting the occupied cell of a
concrete board, the removed piece's back-reference still names the board
(its board half is not None), so the recorded location is not
(None, None). -/
theorem removal_backreference_cex :
    (delItem sOcc2 [0]).map (fun s' => (s'.pieces 0).board) = .ok (some ()) ∧
      (delItem sOcc2 [0]).map (fun s' => (s'.pieces 0).board) ≠
        .ok (none : Option Unit) := by
  have h1 : (delItem sOcc2 [0]).map (fun s' => (s'.pieces 0).board) = .ok (some ()) := rfl
  refine ⟨h1, ?_⟩
  intro h
  have h2 := h1.symm.trans h
  exact Option.noConfusion (Except.ok.inj h2)

/-- Witness for C8 (amended) at a concrete deletion. -/
theorem removal_backreference_witness :
    getItem sOcc2 [0] = .ok (some 0) ∧
      (∀ s', delItem sOcc2 [0] = .ok s' →
        (s'.pieces 0).board = some () ∧ (s'.pieces 0).place = none) :=
  ⟨rfl, (removal_backreference sOcc2 [0] 0 rfl).1⟩

/-! ### Claim C9 -/

theorem inBoundsB_false_iff (c s : Point) :
    inBoundsB c s = false ↔ ∃ p ∈ List.zip c s, p.1 < 0 ∨ p.2 ≤ p.1 := by
  rw [← Bool.not_eq_true, inBoundsB, List.all_eq_true]
  simp only [decide_eq_true_eq]
  push_neg
  constructor
  · rintro ⟨p, hp, h⟩
    exact ⟨p, hp, by omega⟩
  · rintro ⟨p, hp, h⟩
    exact ⟨p, hp, by omega⟩

theorem tensorIndex_oob {s c : Point} (hlen : c.length = s.length)
    (hb : inBoundsB c s = false) : tensorIndex s c = .error .outOfBounds := by
  rw [tensorIndex, tensorContains_of_len hlen, bindE_ok, hb]
  rfl

theorem tensorIndex_empty {s : Point} (hlen : ([] : Point).length = s.length) :
    tensorIndex s [] = .error .emptyReduce := by
  have hs : s = [] := by
    cases s with
    | nil => rfl
    | cons x xs => simp at hlen
  subst hs
  rfl

/-- C9 (amended): for a coordinate of the same dimension as the shape, get
and set (and board.py's bounds assert) raise OutOfBounds exactly when some
component is negative or at least the corresponding shape component.  For
a coordinate of a different dimension, the Tensor access path always
raises the distinct DimensionMismatch error; board.py's assert raises
DimensionMismatch only when every component is non-negative — when some
component is negative, the chained comparison in Board.__contains__
short-circuits and the assert raises OutOfBounds instead. -/
theorem bounds_error_classification (s : State) (c : Point) :
    (c.length = s.shape.length →
      ((getItem s c = .error .outOfBounds ↔ ∃ p ∈ List.zip c s.shape, p.1 < 0 ∨ p.2 ≤ p.1) ∧
       (∀ v, setItem s c v = .error .outOfBounds ↔
          ∃ p ∈ List.zip c s.shape, p.1 < 0 ∨ p.2 ≤ p.1) ∧
       (assertOnBoard s.shape c = .error .outOfBounds ↔
          ∃ p ∈ List.zip c s.shape, p.1 < 0 ∨ p.2 ≤ p.1))) ∧
    (c.length ≠ s.shape.length →
      (getItem s c = .error .dimension ∧
       (∀ v, setItem s c v = .error .dimension) ∧
       ((c.all fun x => decide (0 ≤ x)) = true →
          assertOnBoard s.shape c = .error .dimension) ∧
       ((c.all fun x => decide (0 ≤ x)) = false →
          assertOnBoard s.shape c = .error .outOfBounds))) := by
  constructor
  · intro hlen
    have hok : ∀ (hb : inBoundsB c s.shape = true) (hne : c ≠ []),
        tensorIndex s.shape c = .ok (rmIndex c s.shape) :=
      fun hb hne => tensorIndex_of_inb ((inBoundsB_iff hlen).mp hb) hne
    refine ⟨?_, ?_, ?_⟩
    · rw [← inBoundsB_false_iff]
      constructor
      · intro h
        cases hb : inBoundsB c s.shape with
        | false => rfl
        | true =>
          exfalso
          cases hc : c with
          | nil =>
            subst hc
            rw [getItem_of_index_error (tensorIndex_empty hlen)] at h
            cases h
          | cons a t =>
            rw [getItem_of_index (hok hb (by simp [hc]))] at h
            cases h
      · intro hb
        rw [getItem_of_index_error (tensorIndex_oob hlen hb)]
    · intro v
      rw [← inBoundsB_false_iff]
      constructor
      · intro h
        cases hb : inBoundsB c s.shape with
        | false => rfl
        | true =>
          exfalso
          cases hc : c with
          | nil =>
            subst hc
            rw [setItem, getItem_of_index_error (tensorIndex_empty hlen), bindE_error] at h
            cases h
          | cons a t =>
            have hidx := hok hb (by simp [hc])
            cases hocc : s.contents.getD (rmIndex c s.shape).toNat none with
            | some occ =>
              cases v with
              | some vid => rw [setItem_some_some hidx hocc] at h; cases h
              | none => rw [setItem_some_none hidx hocc] at h; cases h
            | none =>
              cases v with
              | some vid => rw [setItem_none_some hidx hocc] at h; cases h
              | none => rw [setItem_none_none hidx hocc] at h; cases h
      · intro hb
        rw [setItem, getItem_of_index_error (tensorIndex_oob hlen hb), bindE_error]
    · rw [← inBoundsB_false_iff]
      rw [assertOnBoard, boardContains_of_len hlen, bindE_ok]
      cases hb : inBoundsB c s.shape with
      | false => simp
      | true => simp [pureE]
  · intro hlen
    refine ⟨?_, ?_, ?_, ?_⟩
    · rw [getItem_of_index_error]
      rw [tensorIndex, tensorContains_of_mismatch hlen, bindE_error]
    · intro v
      rw [setItem, getItem_of_index_error, bindE_error]
      rw [tensorIndex, tensorContains_of_mismatch hlen, bindE_error]
    · intro hnn
      rw [assertOnBoard, boardContains_of_mismatch_nonneg hlen hnn, bindE_error]
    · intro hneg
      rw [assertOnBoard, boardContains_of_neg hneg, bindE_ok]
      rfl

/-- Counterexample for C9 as stated: on board.py's bounds check, the
mismatched-dimension coordinate [-1] against shape (3, 3) raises
OutOfBounds, not the distinct DimensionMismatch the claim promises. -/
theorem bounds_error_cex :
    ([-1] : Point).length ≠ ([3, 3] : Point).length ∧
      assertOnBoard [3, 3] [-1] = .error .outOfBounds ∧
      assertOnBoard [3, 3] [-1] ≠ .error .dimension := by
  have h1 : assertOnBoard [3, 3] [-1] = .error .outOfBounds := rfl
  refine ⟨by decide, h1, ?_⟩
  intro h
  have h2 := h1.symm.trans h
  exact Err.noConfusion (Except.error.inj h2)

/-- Board used by the C9 witness. -/
def s33 : State := mkBoard [3, 3] pieces0

/-- Witness for C9 (amended): a same-dimension negative coordinate raises
OutOfBounds on get, and a mismatched-dimension non-negative coordinate
raises DimensionMismatch. -/
theorem bounds_error_witness :
    getItem s33 [-1, 0] = .error .outOfBounds ∧ getItem s33 [0] = .error .dimension :=
  ⟨((bounds_error_classification s33 [-1, 0]).1 (by decide)).1.mpr
      ⟨(-1, 3), by decide, by decide⟩,
    ((bounds_error_classification s33 [0]).2 (by decide)).1⟩

/-! ### Claim C1: invariant I1 -/

/-- Invariant I1: for every populated cell, the occupying piece's
back-reference equals that cell's coordinate on that board. -/
def I1 (s : State) : Prop :=
  ∀ pt pid, getItem s pt = .ok (some pid) →
    (s.pieces pid).board = some () ∧ (s.pieces pid).place = some pt

theorem getD_default_or_mem {α : Type} (l : List α) (j : Nat) (d : α) :
    l.getD j d = d ∨ l.getD j d ∈ l := by
  induction l generalizing j with
  | nil => left; rfl
  | cons a t ih =>
    cases j with
    | zero => right; exact List.mem_cons_self a t
    | succ j' =>
      rcases ih j' with h | h
      · left; exact h
      · right; exact List.mem_cons_of_mem a h

/-- A piece id that occurs nowhere in the flat buffer occupies no cell. -/
theorem notOnGrid_of_not_mem {s : State} {pid : Nat} (h : some pid ∉ s.contents) :
    ∀ c, getItem s c ≠ .ok (some pid) := by
  intro c hc
  obtain ⟨_, hval⟩ := getItem_ok_index hc
  rcases getD_default_or_mem s.contents (rmIndex c s.shape).toNat none with hd | hm
  · rw [hd] at hval; cases hval
  · rw [← hval] at hm; exact h hm

/-- A freshly constructed board satisfies I1 vacuously. -/
theorem I1_mkBoard (shape : Point) (ps : Nat → Piece) : I1 (mkBoard shape ps) := by
  intro pt pid h
  exfalso
  exact notOnGrid_of_not_mem
    (by intro hm; exact Option.noConfusion (List.eq_of_mem_replicate hm)) pt h

/-- Writing `v` at an in-bounds cell preserves I1 for any piece store that
gives the written piece the new back-reference and leaves every piece
other than the written one and the displaced occupant untouched, provided
the written piece occupied no other cell. -/
theorem I1_after_write (s : State) (k : Point) (v : Option Nat)
    (J : Nat → Finset Nat) (P : Nat → Piece)
    (hI1 : I1 s) (hWF : WF s)
    (hidx : tensorIndex s.shape k = .ok (rmIndex k s.shape))
    (hPv : ∀ vid, v = some vid → (P vid).board = some () ∧ (P vid).place = some k)
    (hPother : ∀ pid, v ≠ some pid → getItem s k ≠ .ok (some pid) → P pid = s.pieces pid)
    (hNA : ∀ vid, v = some vid → ∀ c, getItem s c = .ok (some vid) → c = k) :
    I1 { shape := s.shape, contents := s.contents.set (rmIndex k s.shape).toNat v,
         jail := J, pieces := P } := by
  intro pt pid hpt
  obtain ⟨hidxr, hvalr⟩ := getItem_ok_index hpt
  have hidxr' : tensorIndex s.shape pt = .ok (rmIndex pt s.shape) := hidxr
  have hvalr' : some pid =
      (s.contents.set (rmIndex k s.shape).toNat v).getD (rmIndex pt s.shape).toNat none :=
    hvalr
  have hlt : (rmIndex k s.shape).toNat < s.contents.length := index_lt_length hWF hidx
  by_cases hij : (rmIndex pt s.shape).toNat = (rmIndex k s.shape).toNat
  · rw [hij, getD_set_self _ _ _ _ hlt] at hvalr'
    have hpt_eq : pt = k := by
      obtain ⟨hinb, _, _⟩ := tensorIndex_ok_inb hidxr'
      obtain ⟨hinb', _, _⟩ := tensorIndex_ok_inb hidx
      obtain ⟨hn1, _⟩ := rmIndex_bounds hinb
      obtain ⟨hn2, _⟩ := rmIndex_bounds hinb'
      exact rmIndex_inj hinb hinb' (by omega)
    subst hpt_eq
    exact hPv pid hvalr'.symm
  · rw [getD_set_ne _ _ _ _ _ (fun hh => hij hh.symm)] at hvalr'
    have hold : getItem s pt = .ok (some pid) := by
      rw [getItem_of_index hidxr', ← hvalr']
    obtain ⟨hb, hp⟩ := hI1 pt pid hold
    have hne_v : v ≠ some pid := by
      intro hv
      apply hij
      rw [hNA pid hv pt hold]
    have hne_k : getItem s k ≠ .ok (some pid) := by
      intro hk
      obtain ⟨_, hpk⟩ := hI1 k pid hk
      rw [hp] at hpk
      apply hij
      rw [Option.some.inj hpk]
    have hPp : P pid = s.pieces pid := hPother pid hne_v hne_k
    show (P pid).board = some () ∧ (P pid).place = some pt
    rw [hPp]
    exact ⟨hb, hp⟩

theorem WF_write (s : State) (j : Nat) (v : Option Nat) (J : Nat → Finset Nat)
    (P : Nat → Piece) (hWF : WF s) :
    WF { shape := s.shape, contents := s.contents.set j v, jail := J, pieces := P } := by
  obtain ⟨h1, h2, h3⟩ := hWF
  exact ⟨h1, h2, by simpa using h3⟩

/-- Board.__setitem__ preserves I1 whenever the placed piece occupies no
cell other than the written one. -/
theorem I1_setItem {s s' : State} {k : Point} {v : Option Nat}
    (hI1 : I1 s) (hWF : WF s)
    (hNA : ∀ vid, v = some vid → ∀ c, getItem s c = .ok (some vid) → c = k)
    (hok : setItem s k v = .ok s') : I1 s' ∧ WF s' := by
  cases hidx : tensorIndex s.shape k with
  | error e => rw [setItem, getItem_of_index_error hidx, bindE_error] at hok; cases hok
  | ok i =>
    have hi : i = rmIndex k s.shape := (tensorIndex_ok_inb hidx).2.2
    subst hi
    have hkval : getItem s k = .ok (s.contents.getD (rmIndex k s.shape).toNat none) :=
      getItem_of_index hidx
    cases hocc : s.contents.getD (rmIndex k s.shape).toNat none with
    | some occ =>
      rw [hocc] at hkval
      cases v with
      | some vid =>
        rw [setItem_some_some hidx hocc] at hok
        cases hok
        constructor
        · apply I1_after_write s k (some vid) _ _ hI1 hWF hidx
          · intro vid' hv
            cases hv
            constructor <;> simp [updateLoc]
          · intro pid hnv hnk
            have h1 : pid ≠ vid := fun hh => hnv (by rw [hh])
            have h2 : pid ≠ occ := fun hh => hnk (by rw [hh]; exact hkval)
            simp [updateLoc, h1, h2]
          · exact hNA
        · exact WF_write s _ _ _ _ hWF
      | none =>
        rw [setItem_some_none hidx hocc] at hok
        cases hok
        constructor
        · apply I1_after_write s k none _ _ hI1 hWF hidx
          · intro vid' hv; cases hv
          · intro pid hnv hnk
            have h2 : pid ≠ occ := fun hh => hnk (by rw [hh]; exact hkval)
            simp [updateLoc, h2]
          · intro vid' hv; cases hv
        · exact WF_write s _ _ _ _ hWF
    | none =>
      rw [hocc] at hkval
      cases v with
      | some vid =>
        rw [setItem_none_some hidx hocc] at hok
        cases hok
        constructor
        · apply I1_after_write s k (some vid) _ _ hI1 hWF hidx
          · intro vid' hv
            cases hv
            constructor <;> simp [updateLoc]
          · intro pid hnv hnk
            have h1 : pid ≠ vid := fun hh => hnv (by rw [hh])
            simp [updateLoc, h1]
          · exact hNA
        · exact WF_write s _ _ _ _ hWF
      | none =>
        rw [setItem_none_none hidx hocc] at hok
        cases hok
        constructor
        · apply I1_after_write s k none _ _ hI1 hWF hidx
          · intro vid' hv; cases hv
          · intro pid hnv hnk; rfl
          · intro vid' hv; cases hv
        · exact WF_write s _ _ _ _ hWF

/-- Board.__delitem__ preserves I1. -/
theorem I1_delItem {s s' : State} {k : Point}
    (hI1 : I1 s) (hWF : WF s) (hok : delItem s k = .ok s') : I1 s' ∧ WF s' := by
  cases hidx : tensorIndex s.shape k with
  | error e => rw [delItem, getItem_of_index_error hidx, bindE_error] at hok; cases hok
  | ok i =>
    have hi : i = rmIndex k s.shape := (tensorIndex_ok_inb hidx).2.2
    subst hi
    have hkval : getItem s k = .ok (s.contents.getD (rmIndex k s.shape).toNat none) :=
      getItem_of_index hidx
    cases hocc : s.contents.getD (rmIndex k s.shape).toNat none with
    | some occ =>
      rw [hocc] at hkval
      rw [delItem_some hidx hocc] at hok
      cases hok
      constructor
      · apply I1_after_write s k none _ _ hI1 hWF hidx
        · intro vid' hv; cases hv
        · intro pid hnv hnk
          have h2 : pid ≠ occ := fun hh => hnk (by rw [hh]; exact hkval)
          simp [updateLoc, h2]
        · intro vid' hv; cases hv
      · exact WF_write s _ _ _ _ hWF
    | none =>
      rw [delItem_none hidx hocc] at hok
      cases hok
      constructor
      · apply I1_after_write s k none _ _ hI1 hWF hidx
        · intro vid' hv; cases hv
        · intro pid hnv hnk; rfl
        · intro vid' hv; cases hv
      · exact WF_write s _ _ _ _ hWF

/-- Adding to the jail changes neither the grid nor the pieces, so I1
transports across it definitionally. -/
theorem I1_jailAdd (s : State) (p o : Nat) (h : I1 s) : I1 (jailAdd s p o) := h

theorem WF_jailAdd (s : State) (p o : Nat) (h : WF s) : WF (jailAdd s p o) := h

/-- One tagged mutation preserves I1 whenever a PLACE payload occupies no
cell other than the mutation's point. -/
theorem I1_applyMutation {s s' : State} {m : Mutation}
    (hI1 : I1 s) (hWF : WF s)
    (hpl : ∀ pid, m.op = .PLACE → m.payload = some pid →
      ∀ c, getItem s c = .ok (some pid) → c = m.point)
    (hok : applyMutation s m = .ok s') : I1 s' ∧ WF s' := by
  obtain ⟨op, pt, payload⟩ := m
  cases hidx : tensorIndex s.shape pt with
  | error e =>
    rw [applyMutation_index_error hidx op payload] at hok
    cases hok
  | ok i =>
    have hi : i = rmIndex pt s.shape := (tensorIndex_ok_inb hidx).2.2
    subst hi
    cases hocc : s.contents.getD (rmIndex pt s.shape).toNat none with
    | none =>
      cases op with
      | REMOVE =>
        rw [applyMutation_remove_none hidx hocc payload] at hok
        cases hok
        exact ⟨hI1, hWF⟩
      | CAPTURE =>
        rw [applyMutation_capture_none hidx hocc payload] at hok
        cases hok
        exact ⟨hI1, hWF⟩
      | PLACE =>
        cases payload with
        | none =>
          rw [applyMutation_place_none_none hidx hocc] at hok
          cases hok
          exact ⟨hI1, hWF⟩
        | some pay =>
          rw [applyMutation_place_none_some hidx hocc] at hok
          have hset : setItem s pt (some pay) = .ok s' := by
            rw [setItem_none_some hidx hocc]
            exact hok
          exact I1_setItem hI1 hWF
            (fun vid hv c hc => hpl vid rfl hv c hc) hset
    | some occ =>
      cases op with
      | REMOVE =>
        rw [applyMutation_remove_some hidx hocc payload] at hok
        have hdel : delItem s pt = .ok s' := by
          rw [delItem_some hidx hocc]
          exact hok
        exact I1_delItem hI1 hWF hdel
      | CAPTURE =>
        cases payload with
        | none =>
          rw [applyMutation_capture_some_none hidx hocc] at hok
          cases hok
        | some pay =>
          rw [applyMutation_capture_some hidx hocc] at hok
          have hdel : delItem (jailAdd s ((s.pieces pay).player) occ) pt = .ok s' := by
            rw [delItem_some (show tensorIndex
                (jailAdd s ((s.pieces pay).player) occ).shape pt =
                .ok (rmIndex pt s.shape) from hidx) hocc]
            exact hok
          exact I1_delItem (I1_jailAdd s _ _ hI1) (WF_jailAdd s _ _ hWF) hdel
      | PLACE =>
        cases payload with
        | none =>
          rw [applyMutation_place_some_none hidx hocc] at hok
          cases hok
        | some pay =>
          rw [applyMutation_place_some hidx hocc] at hok
          have hset : setItem (jailAdd s ((s.pieces pay).player) occ) pt (some pay) =
              .ok s' := by
            rw [setItem_some_some (show tensorIndex
                (jailAdd s ((s.pieces pay).player) occ).shape pt =
                .ok (rmIndex pt s.shape) from hidx) hocc]
            exact hok
          exact I1_setItem (I1_jailAdd s _ _ hI1) (WF_jailAdd s _ _ hWF)
            (fun vid hv c hc => hpl vid rfl hv c hc) hset

/-- Public operations of the board, as issued by a caller. -/
inductive Op where
  | setItemOp (k : Point) (v : Option Nat)
  | delItemOp (k : Point)
  | applyOp (ms : List Mutation)

/-- Runs one public operation (Board.__setitem__, Board.__delitem__ or
Board.apply); a Board.apply that raises mid-sequence is an error here
because the claim quantifies over error-free runs. -/
def runOp (s : State) : Op → Except Err State
  | .setItemOp k v => setItem s k v
  | .delItemOp k => delItem s k
  | .applyOp ms =>
    match applySeq s ms with
    | (s', none) => .ok s'
    | (_, some e) => .error e

/-- Runs a sequence of public operations, stopping at the first error. -/
def runOps : State → List Op → Except Err State
  | s, [] => .ok s
  | s, op :: ops =>
    match runOp s op with
    | .ok s1 => runOps s1 ops
    | .error e => .error e

/-- An error-free mutation sequence all of whose PLACE payloads occupy no
cell other than their target at the moment they are applied. -/
inductive SafeMuts : State → List Mutation → State → Prop where
  | nil (s : State) : SafeMuts s [] s
  | cons {s s1 s2 : State} {m : Mutation} {ms : List Mutation}
      (hpl : ∀ pid, m.op = .PLACE → m.payload = some pid →
        ∀ c, getItem s c = .ok (some pid) → c = m.point)
      (hok : applyMutation s m = .ok s1) (htail : SafeMuts s1 ms s2) :
      SafeMuts s (m :: ms) s2

/-- An error-free run of public operations in which every piece written by
a set or a PLACE occupies no cell other than the written one at the moment
of writing. -/
inductive SafeOps : State → List Op → State → Prop where
  | nil (s : State) : SafeOps s [] s
  | set {s s1 s2 : State} {k : Point} {v : Option Nat} {ops : List Op}
      (hNA : ∀ vid, v = some vid → ∀ c, getItem s c = .ok (some vid) → c = k)
      (hok : setItem s k v = .ok s1) (hrest : SafeOps s1 ops s2) :
      SafeOps s (Op.setItemOp k v :: ops) s2
  | del {s s1 s2 : State} {k : Point} {ops : List Op}
      (hok : delItem s k = .ok s1) (hrest : SafeOps s1 ops s2) :
      SafeOps s (Op.delItemOp k :: ops) s2
  | app {s s1 s2 : State} {ms : List Mutation} {ops : List Op}
      (hseq : SafeMuts s ms s1) (hrest : SafeOps s1 ops s2) :
      SafeOps s (Op.applyOp ms :: ops) s2

theorem SafeMuts_applySeq {s s' : State} {ms : List Mutation}
    (h : SafeMuts s ms s') : applySeq s ms = (s', none) := by
  induction h with
  | nil s => rfl
  | cons hpl hok htail ih =>
    show (match applyMutation _ _ with
      | .ok s1 => applySeq s1 _
      | .error e => (_, some e)) = _
    rw [hok]
    exact ih

theorem I1_SafeMuts {s s' : State} {ms : List Mutation}
    (hI1 : I1 s) (hWF : WF s) (h : SafeMuts s ms s') : I1 s' ∧ WF s' := by
  induction h with
  | nil s => exact ⟨hI1, hWF⟩
  | cons hpl hok htail ih =>
    obtain ⟨h1, h2⟩ := I1_applyMutation hI1 hWF hpl hok
    exact ih h1 h2

/-- C1 (amended): starting from a well-formed board satisfying I1, every
error-free run of public operations — setting a cell, deleting a cell,
applying tagged mutation sequences — in which each piece written by a set
or a PLACE is not simultaneously occupying a different cell, completes
without error and preserves invariant I1: afterwards every populated cell
holds a piece whose recorded back-reference is that cell on that board.
In particular each single safe set, delete and apply preserves I1. -/
theorem runOps_cons_ok {s s1 : State} {op : Op} {ops : List Op}
    (h : runOp s op = .ok s1) : runOps s (op :: ops) = runOps s1 ops := by
  show (match runOp s op with
    | .ok s1 => runOps s1 ops
    | .error e => .error e) = runOps s1 ops
  rw [h]

theorem safe_ops_preserve_I1 (s s' : State) (ops : List Op)
    (hWF : WF s) (hI1 : I1 s) (hsafe : SafeOps s ops s') :
    runOps s ops = .ok s' ∧ I1 s' ∧ WF s' := by
  revert hWF hI1
  induction hsafe with
  | nil s => intro hWF hI1; exact ⟨rfl, hI1, hWF⟩
  | set hNA hok hrest ih =>
    rename_i s0 s1 s2 k v ops0
    intro hWF hI1
    obtain ⟨h1, h2⟩ := I1_setItem hI1 hWF hNA hok
    obtain ⟨hr, hi, hw⟩ := ih h2 h1
    exact ⟨by
      rw [runOps_cons_ok (show runOp s0 (Op.setItemOp k v) = .ok s1 from hok)]
      exact hr, hi, hw⟩
  | del hok hrest ih =>
    rename_i s0 s1 s2 k ops0
    intro hWF hI1
    obtain ⟨h1, h2⟩ := I1_delItem hI1 hWF hok
    obtain ⟨hr, hi, hw⟩ := ih h2 h1
    exact ⟨by
      rw [runOps_cons_ok (show runOp s0 (Op.delItemOp k) = .ok s1 from hok)]
      exact hr, hi, hw⟩
  | app hseq hrest ih =>
    rename_i s0 s1 s2 ms ops0
    intro hWF hI1
    obtain ⟨h1, h2⟩ := I1_SafeMuts hI1 hWF hseq
    obtain ⟨hr, hi, hw⟩ := ih h2 h1
    have hrun : runOp s0 (Op.applyOp ms) = .ok s1 := by
      show (match applySeq s0 ms with
        | (s', none) => (Except.ok s' : Except Err State)
        | (_, some e) => Except.error e) = Except.ok s1
      rw [SafeMuts_applySeq hseq]
    exact ⟨by rw [runOps_cons_ok hrun]; exact hr, hi, hw⟩

/-- Boolean success test for a run of operations. -/
def isOkE : Except Err State → Bool
  | .ok _ => true
  | .error _ => false

/-- Operations of the C1 counterexample: place piece 0 at [0], then place
the same piece object at [1] without removing it from [0]. -/
def opsCex : List Op := [.setItemOp [0] (some 0), .setItemOp [1] (some 0)]

/-- State reached by the C1 counterexample run. -/
def sBadC1 : State :=
  match runOps sEmpty2 opsCex with
  | .ok s => s
  | .error _ => sEmpty2

/-- Counterexample for C1 as stated: the two set operations run without
any error, yet afterwards cell [0] still holds piece 0 while the piece's
recorded coordinate is [1] — invariant I1 does not survive every
error-free sequence of public operations. -/
theorem safe_ops_cex :
    isOkE (runOps sEmpty2 opsCex) = true ∧
      getItem sBadC1 [0] = .ok (some 0) ∧
      (sBadC1.pieces 0).place = some [1] ∧
      ¬ I1 sBadC1 := by
  refine ⟨rfl, rfl, rfl, ?_⟩
  intro h
  have h2 := (h [0] 0 rfl).2
  rw [show (sBadC1.pieces 0).place = some [1] from rfl] at h2
  exact absurd h2 (by decide)

/-- Operations of the C1 witness: a fresh placement followed by a
deletion. -/
def opsW : List Op := [.setItemOp [0] (some 0), .delItemOp [0]]

/-- Witness for C1 (amended) on a concrete safe run. -/
theorem safe_ops_preserve_I1_witness :
    WF sEmpty2 ∧ ∃ s', SafeOps sEmpty2 opsW s' ∧
      runOps sEmpty2 opsW = .ok s' ∧ I1 s' ∧ WF s' := by
  have hNA : ∀ vid, (some 0 : Option Nat) = some vid →
      ∀ c, getItem sEmpty2 c = .ok (some vid) → c = [0] := by
    intro vid hv c hc
    cases hv
    exact absurd hc (notOnGrid_of_not_mem (by decide) c)
  have hsafe : SafeOps sEmpty2 opsW _ :=
    SafeOps.set hNA rfl (SafeOps.del rfl (SafeOps.nil _))
  exact ⟨⟨by decide, by decide, by decide⟩, _, hsafe,
    safe_ops_preserve_I1 _ _ _ ⟨by decide, by decide, by decide⟩
      (I1_mkBoard [2] pieces0) hsafe⟩

/-! ### Claims C6 and C7: the linear ray generator -/

/-- 5-by-5 board with piece 0 (player 0) at (0, 0). -/
def s55 : State :=
  { shape := [5, 5]
    contents := (List.replicate 25 (none : Option Nat)).set 0 (some 0)
    jail := fun _ => ∅
    pieces := pieces0 }

/-- The constant step generator (1, 2). -/
def constStep : Nat → Option Point := fun _ => some [1, 2]

theorem boardContains_true_inb {shape c : Point}
    (h : boardContains shape c = .ok true) :
    c.length = shape.length ∧ inBoundsB c shape = true := by
  by_cases hlen : c.length = shape.length
  · rw [boardContains_of_len hlen] at h
    exact ⟨hlen, Except.ok.inj h⟩
  · by_cases hnn : (c.all fun x => decide (0 ≤ x)) = true
    · rw [boardContains_of_mismatch_nonneg hlen hnn] at h
      cases h
    · rw [boardContains_of_neg (Bool.not_eq_true _ ▸ hnn : _ = false)] at h
      exact absurd (Except.ok.inj h) (by decide)

theorem getItemB_of_contains {s : State} {c : Point}
    (h : boardContains s.shape c = .ok true) :
    getItemB s c = getItem s c := by
  rw [getItemB, assertOnBoard, h, bindE_ok]
  rfl

theorem getItemB_ok_parts {s : State} {c : Point} {v : Option Nat}
    (h : getItemB s c = .ok v) :
    boardContains s.shape c = .ok true ∧ getItem s c = .ok v := by
  rw [getItemB, assertOnBoard] at h
  cases hbc : boardContains s.shape c with
  | error e => rw [hbc, bindE_error, bindE_error] at h; cases h
  | ok b =>
    cases b with
    | false =>
      rw [hbc, bindE_ok] at h
      cases h
    | true =>
      rw [hbc, bindE_ok] at h
      exact ⟨rfl, h⟩

/-- C6: on a 5-by-5 board with a piece at (0, 0), the ray with constant
step (1, 2) yields exactly (1, 2) then (2, 4) and stops.  In general,
while the advanced coordinate stays on the board: an empty cell is
yielded and the walk continues; a cell occupied by an opposing piece is
yielded exactly when capture is enabled and always ends the ray; a cell
occupied by a same-owner piece ends the ray without being yielded. -/
theorem ray_generator_semantics :
    (getRepeatedPoints s55 [0, 0] constStep true 10 = .out [[1, 2], [2, 4]]) ∧
    (∀ (s : State) (piece : Option Nat) (steps : Nat → Option Point) (capture : Bool)
        (k : Nat) (point : Point) (fuel : Nat) (d point' : Point),
      boardContains s.shape point = .ok true →
      getItemB s point = .ok none →
      steps k = some d →
      ptAdd point d = .ok point' →
      rayLoop s piece steps capture k point (fuel + 1) =
        rayCons point (rayLoop s piece steps capture (k + 1) point' fuel)) ∧
    (∀ (s : State) (pid : Nat) (steps : Nat → Option Point) (capture : Bool)
        (k : Nat) (point : Point) (fuel : Nat) (q : Nat),
      boardContains s.shape point = .ok true →
      getItemB s point = .ok (some q) →
      (s.pieces pid).player ≠ (s.pieces q).player →
      rayLoop s (some pid) steps capture k point (fuel + 1) =
        (if capture then .out [point] else .out [])) ∧
    (∀ (s : State) (pid : Nat) (steps : Nat → Option Point) (capture : Bool)
        (k : Nat) (point : Point) (fuel : Nat) (q : Nat),
      boardContains s.shape point = .ok true →
      getItemB s point = .ok (some q) →
      (s.pieces pid).player = (s.pieces q).player →
      rayLoop s (some pid) steps capture k point (fuel + 1) = .out []) := by
  refine ⟨rfl, ?_, ?_, ?_⟩
  · intro s piece steps capture k point fuel d point' hbc hget hstp hadd
    have hgi : getItem s point = .ok none := (getItemB_ok_parts hget).2
    simp [rayLoop, hbc, getItemB_of_contains hbc, hgi, hstp, hadd]
  · intro s pid steps capture k point fuel q hbc hget hne
    have hgi : getItem s point = .ok (some q) := (getItemB_ok_parts hget).2
    simp [rayLoop, hbc, getItemB_of_contains hbc, hgi, hne]
  · intro s pid steps capture k point fuel q hbc hget heq
    have hgi : getItem s point = .ok (some q) := (getItemB_ok_parts hget).2
    simp [rayLoop, hbc, getItemB_of_contains hbc, hgi, heq]

/-- Witness for the general laws of C6, instantiated on the concrete
board at the first step of the (1, 2) ray. -/
theorem ray_generator_semantics_witness :
    boardContains s55.shape [1, 2] = .ok true ∧ getItemB s55 [1, 2] = .ok none ∧
      constStep 1 = some [1, 2] ∧ ptAdd [1, 2] [1, 2] = .ok [2, 4] ∧
      rayLoop s55 (some 0) constStep true 1 [1, 2] 6 =
        rayCons [1, 2] (rayLoop s55 (some 0) constStep true 2 [2, 4] 5) :=
  ⟨rfl, rfl, rfl, rfl,
    ray_generator_semantics.2.1 s55 (some 0) constStep true 1 [1, 2] 5 [1, 2] [2, 4]
      rfl rfl rfl rfl⟩

theorem inb_all_nonneg {p sh : Point} (h : InBounds p sh) : ∀ x ∈ p, 0 ≤ x := by
  induction h with
  | nil => intro x hx; cases hx
  | cons hab htail ih =>
    intro x hx
    rcases List.mem_cons.mp hx with hx | hx
    · subst hx; exact hab.1
    · exact ih x hx

theorem sum_le_of_inBounds {p sh : Point} (h : InBounds p sh) :
    p.sum + (p.length : Int) ≤ sh.sum := by
  induction h with
  | nil => simp
  | cons hab htail ih =>
    rename_i a b cs ss
    simp only [List.sum_cons, List.length_cons]
    push_cast
    have : a + 1 ≤ b := by omega
    linarith

theorem sum_pos_of_step {d : Point} (hnn : ∀ x ∈ d, 0 ≤ x) (hpos : ∃ x ∈ d, 0 < x) :
    1 ≤ d.sum := by
  induction d with
  | nil =>
    obtain ⟨x, hx, _⟩ := hpos
    cases hx
  | cons a t ih =>
    have hts : 0 ≤ t.sum := List.sum_nonneg fun x hx => hnn x (List.mem_cons_of_mem a hx)
    have ha : 0 ≤ a := hnn a (List.mem_cons_self a t)
    rw [List.sum_cons]
    obtain ⟨x, hx, hxp⟩ := hpos
    rcases List.mem_cons.mp hx with hx | hx
    · subst hx; omega
    · have := ih (fun y hy => hnn y (List.mem_cons_of_mem a hy)) ⟨x, hx, hxp⟩
      omega

theorem sum_zipWith_add (p d : Point) (h : p.length = d.length) :
    (List.zipWith (· + ·) p d).sum = p.sum + d.sum := by
  induction p generalizing d with
  | nil =>
    cases d with
    | nil => simp
    | cons b u => simp at h
  | cons a t ih =>
    cases d with
    | nil => simp at h
    | cons b u =>
      simp only [List.length_cons, Nat.succ.injEq] at h
      simp only [List.zipWith_cons_cons, List.sum_cons, ih u h]
      ring

theorem rayCons_ne_spin {p : Point} {r : RayOut} (h : r ≠ .spin) :
    rayCons p r ≠ .spin := by
  cases r <;> simp [rayCons] at h ⊢

/-- The ray loop exits within `fuel` iterations once `fuel` exceeds the
remaining coordinate-sum headroom, for non-negative nonzero steps. -/
theorem rayLoop_no_spin (s : State) (pid : Nat) (steps : Nat → Option Point)
    (capture : Bool) (hWF : WF s)
    (hsteps : ∀ k d, steps k = some d →
      d.length = s.shape.length ∧ (∀ x ∈ d, 0 ≤ x) ∧ ∃ x ∈ d, 0 < x) :
    ∀ (fuel k : Nat) (p : Point), p.length = s.shape.length → 1 ≤ fuel →
      s.shape.sum - p.sum < (fuel : Int) →
      rayLoop s (some pid) steps capture k p fuel ≠ .spin := by
  intro fuel
  induction fuel with
  | zero => intro k p _ h1 _; omega
  | succ fuel ih =>
    intro k p hlen h1 h2
    cases hbc : boardContains s.shape p with
    | error e => simp [rayLoop, hbc]
    | ok b =>
      cases b with
      | false => simp [rayLoop, hbc]
      | true =>
        have hb : inBoundsB p s.shape = true := (boardContains_true_inb hbc).2
        have hinb : InBounds p s.shape := (inBoundsB_iff hlen).mp hb
        have hlenpos : 1 ≤ p.length := by
          rw [hlen]
          cases hsh : s.shape with
          | nil => exact absurd hsh hWF.1
          | cons a t => simp
        have hne : p ≠ [] := by
          cases p with
          | nil => simp at hlenpos
          | cons a t => simp
        have hidx : tensorIndex s.shape p = .ok (rmIndex p s.shape) :=
          tensorIndex_of_inb hinb hne
        have hget : getItemB s p =
            .ok (s.contents.getD (rmIndex p s.shape).toNat none) := by
          rw [getItemB_of_contains hbc, getItem_of_index hidx]
        have hsum : p.sum + (p.length : Int) ≤ s.shape.sum := sum_le_of_inBounds hinb
        cases hcell : s.contents.getD (rmIndex p s.shape).toNat none with
        | some q =>
          rw [hcell] at hget
          simp only [rayLoop, hbc, hget]
          split
          · split <;> simp
          · simp
        | none =>
          rw [hcell] at hget
          cases hstp : steps k with
          | none => simp [rayLoop, hbc, hget, hstp]
          | some d =>
            obtain ⟨hdl, hdnn, hdpos⟩ := hsteps k d hstp
            have hadd : ptAdd p d = .ok (List.zipWith (· + ·) p d) := by
              rw [ptAdd, if_pos (by omega)]
            have hlen' : (List.zipWith (· + ·) p d).length = s.shape.length := by
              rw [List.length_zipWith]
              omega
            have hd1 : 1 ≤ d.sum := sum_pos_of_step hdnn hdpos
            have hM : (1 : Int) ≤ s.shape.sum - p.sum := by
              have : (1 : Int) ≤ (p.length : Int) := by exact_mod_cast hlenpos
              linarith
            have h1' : 1 ≤ fuel := by
              have hc : ((fuel + 1 : Nat) : Int) = (fuel : Int) + 1 := by push_cast; ring
              rw [hc] at h2
              omega
            have hsum' : s.shape.sum - (List.zipWith (· + ·) p d).sum < (fuel : Int) := by
              rw [sum_zipWith_add p d (by omega)]
              have hc : ((fuel + 1 : Nat) : Int) = (fuel : Int) + 1 := by push_cast; ring
              rw [hc] at h2
              linarith
            have hrec := ih (k + 1) (List.zipWith (· + ·) p d) hlen' h1' hsum'
            simp only [rayLoop, hbc, hget, hstp, hadd]
            exact rayCons_ne_spin hrec

/-- C7 (amended): for every well-formed board, every in-bounds starting
coordinate holding a piece, and every step-vector sequence — finite or
infinite — whose vectors are componentwise non-negative, nonzero, and of
the board's dimension, the ray generator terminates within
`sum(shape) + 1` loop iterations (so it yields only finitely many
coordinates).  Without the non-negativity restriction an infinite step
sequence can oscillate between empty cells forever. -/
theorem ray_finite_nonneg_steps (s : State) (pt : Point) (steps : Nat → Option Point)
    (capture : Bool) (pid : Nat) (hWF : WF s)
    (hocc : getItemB s pt = .ok (some pid))
    (hsteps : ∀ k d, steps k = some d →
      d.length = s.shape.length ∧ (∀ x ∈ d, 0 ≤ x) ∧ ∃ x ∈ d, 0 < x) :
    getRepeatedPoints s pt steps capture (s.shape.sum.toNat + 1) ≠ RayOut.spin := by
  obtain ⟨hbc, _⟩ := getItemB_ok_parts hocc
  obtain ⟨hlen, hb⟩ := boardContains_true_inb hbc
  have hinb : InBounds pt s.shape := (inBoundsB_iff hlen).mp hb
  have hptnn : 0 ≤ pt.sum := List.sum_nonneg (inb_all_nonneg hinb)
  have hshnn : 0 ≤ s.shape.sum :=
    List.sum_nonneg fun x hx => le_of_lt (hWF.2.1 x hx)
  cases hstp : steps 0 with
  | none => simp [getRepeatedPoints, hocc, hstp]
  | some d =>
    obtain ⟨hdl, hdnn, hdpos⟩ := hsteps 0 d hstp
    have hadd : ptAdd pt d = .ok (List.zipWith (· + ·) pt d) := by
      rw [ptAdd, if_pos (by omega)]
    have hlen' : (List.zipWith (· + ·) pt d).length = s.shape.length := by
      rw [List.length_zipWith]
      omega
    have hd1 : 1 ≤ d.sum := sum_pos_of_step hdnn hdpos
    have hsum1 : s.shape.sum - (List.zipWith (· + ·) pt d).sum <
        ((s.shape.sum.toNat + 1 : Nat) : Int) := by
      rw [sum_zipWith_add pt d (by omega)]
      have : ((s.shape.sum.toNat + 1 : Nat) : Int) = s.shape.sum + 1 := by
        push_cast
        omega
      rw [this]
      linarith
    have hloop := rayLoop_no_spin s pid steps capture hWF hsteps
      (s.shape.sum.toNat + 1) 1 (List.zipWith (· + ·) pt d) hlen' (by omega) hsum1
    simp [getRepeatedPoints, hocc, hstp, hadd]
    exact hloop

/-- The oscillating board of the C7 counterexample: a single row of five
cells with the origin piece at [0]; cells [1] and [2] stay empty. -/
def sOsc : State :=
  { shape := [5]
    contents := [some 0, none, none, none, none]
    jail := fun _ => ∅
    pieces := fun _ => { player := 0, board := some (), place := some [0] } }

/-- Infinite step sequence +2, -1, +1, -1, +1, ... which bounces the ray
between cells [2] and [1] forever. -/
def oscSteps : Nat → Option Point :=
  fun k => some (if k = 0 then [2] else if k % 2 = 1 then [-1] else [1])

theorem osc_spin : ∀ (fuel k : Nat) (p : Point), 1 ≤ k →
    (k % 2 = 1 ∧ p = [2] ∨ k % 2 = 0 ∧ p = [1]) →
    rayLoop sOsc (some 0) oscSteps true k p fuel = .spin := by
  intro fuel
  induction fuel with
  | zero => intro k p _ _; rfl
  | succ fuel ih =>
    rintro k p hk (⟨hodd, hp⟩ | ⟨heven, hp⟩) <;> subst hp
    · have hk0 : ¬ k = 0 := by omega
      have h3 : oscSteps k = some [-1] := by simp [oscSteps, hk0, hodd]
      have h1 : boardContains sOsc.shape [2] = .ok true := rfl
      have h2 : getItemB sOsc [2] = .ok none := rfl
      have h4 : ptAdd [2] [-1] = .ok [1] := rfl
      simp only [rayLoop, h1, h2, h3, h4]
      rw [ih (k + 1) [1] (by omega) (Or.inr ⟨by omega, rfl⟩)]
      rfl
    · have hk0 : ¬ k = 0 := by omega
      have hkodd : ¬ k % 2 = 1 := by omega
      have h3 : oscSteps k = some [1] := by simp [oscSteps, hk0, hkodd]
      have h1 : boardContains sOsc.shape [1] = .ok true := rfl
      have h2 : getItemB sOsc [1] = .ok none := rfl
      have h4 : ptAdd [1] [1] = .ok [2] := rfl
      simp only [rayLoop, h1, h2, h3, h4]
      rw [ih (k + 1) [2] (by omega) (Or.inl ⟨by omega, rfl⟩)]
      rfl

/-- Counterexample for C7 as stated: on the finite board sOsc, the
oscillating infinite step sequence keeps the ray walking between two
empty in-bounds cells, so no amount of fuel finishes the generator — it
yields forever and never terminates. -/
theorem ray_nontermination_cex : ¬ rayTerminates sOsc [0] oscSteps true := by
  rintro ⟨fuel, h⟩
  apply h
  show rayLoop sOsc (some 0) oscSteps true 1 [2] fuel = .spin
  exact osc_spin fuel 1 [2] (by omega) (Or.inl ⟨rfl, rfl⟩)

/-- Witness for C7 (amended) on the concrete 5-by-5 ray of C6. -/
theorem ray_finite_nonneg_steps_witness :
    getItemB s55 [0, 0] = .ok (some 0) ∧
      getRepeatedPoints s55 [0, 0] constStep true (s55.shape.sum.toNat + 1) ≠
        RayOut.spin :=
  ⟨rfl, ray_finite_nonneg_steps s55 [0, 0] constStep true 0
    ⟨by decide, by decide, by decide⟩ rfl
    (fun k d hd => by
      cases Option.some.inj hd
      exact ⟨by decide, by decide, by decide⟩)⟩

/-! ### Claim C4: legality filtering in get_moves -/

theorem getMovesGo_no_illegal (applyTrial : State → List Mutation → Option Err)
    (st : State) : ∀ (l acc : List (List Mutation)),
    getMovesGo applyTrial st l acc ≠ .error .illegalBoardState := by
  intro l
  induction l with
  | nil => intro acc h; cases h
  | cons seq rest ih =>
    intro acc
    cases he : applyTrial st seq with
    | none => simpa [getMovesGo, he] using ih (acc ++ [seq])
    | some e =>
      cases e with
      | illegalBoardState => simpa [getMovesGo, he] using ih acc
      | outOfBounds => simp [getMovesGo, he]
      | dimension => simp [getMovesGo, he]
      | attrError => simp [getMovesGo, he]
      | emptyReduce => simp [getMovesGo, he]

theorem getMovesGo_filter (applyTrial : State → List Mutation → Option Err)
    (st : State) : ∀ (l acc : List (List Mutation)),
    (∀ seq ∈ l, applyTrial st seq = none ∨ applyTrial st seq = some .illegalBoardState) →
    getMovesGo applyTrial st l acc =
      .ok (acc ++ l.filter fun seq => (applyTrial st seq).isNone) := by
  intro l
  induction l with
  | nil => intro acc _; simp [getMovesGo]
  | cons seq rest ih =>
    intro acc h
    rcases h seq (List.mem_cons_self seq rest) with he | he
    · rw [show getMovesGo applyTrial st (seq :: rest) acc =
          getMovesGo applyTrial st rest (acc ++ [seq]) by simp [getMovesGo, he]]
      rw [ih (acc ++ [seq]) (fun q hq => h q (List.mem_cons_of_mem seq hq))]
      simp [List.filter_cons, he]
    · rw [show getMovesGo applyTrial st (seq :: rest) acc =
          getMovesGo applyTrial st rest acc by simp [getMovesGo, he]]
      rw [ih acc (fun q hq => h q (List.mem_cons_of_mem seq hq))]
      simp [List.filter_cons, he]

/-- C4: get_moves returns exactly those candidate mutation sequences, in
generator and iteration order, whose trial application raises no
IllegalBoardState; every candidate whose trial raises IllegalBoardState is
discarded; and an IllegalBoardState raised during a trial never propagates
out of get_moves, whatever the trials do. -/
theorem get_moves_legality_filter (applyTrial : State → List Mutation → Option Err)
    (gens : List (State → Point → List (List Mutation))) (st : State) (pt : Point) :
    getMoves applyTrial gens st pt ≠ .error .illegalBoardState ∧
      ((∀ seq ∈ gens.flatMap (fun g => g st pt),
          applyTrial st seq = none ∨ applyTrial st seq = some .illegalBoardState) →
        getMoves applyTrial gens st pt =
          .ok ((gens.flatMap fun g => g st pt).filter fun seq =>
            (applyTrial st seq).isNone)) :=
  ⟨getMovesGo_no_illegal applyTrial st (gens.flatMap fun g => g st pt) [],
    fun h => by
      rw [getMoves, getMovesGo_filter applyTrial st (gens.flatMap fun g => g st pt) [] h]
      simp⟩

/-- Move generator of the C4 witness: one generator proposing the empty
candidate sequence and the single-removal candidate. -/
def gens1 : List (State → Point → List (List Mutation)) := [fun _ _ => [[], [mW1]]]

/-- Trial function of the C4 witness: the board vetoes exactly the empty
candidate with IllegalBoardState. -/
def applyTrial1 : State → List Mutation → Option Err :=
  fun _ seq => if seq = [] then some .illegalBoardState else none

/-- Witness for C4: the vetoed candidate is dropped, the other kept in
order, and no IllegalBoardState escapes. -/
theorem get_moves_legality_filter_witness :
    (∀ seq ∈ gens1.flatMap (fun g => g sOcc2 ([0] : Point)),
        applyTrial1 sOcc2 seq = none ∨ applyTrial1 sOcc2 seq = some .illegalBoardState) ∧
      getMoves applyTrial1 gens1 sOcc2 [0] = .ok [[mW1]] ∧
      getMoves applyTrial1 gens1 sOcc2 [0] ≠ .error .illegalBoardState :=
  ⟨by decide,
    ((get_moves_legality_filter applyTrial1 gens1 sOcc2 [0]).2 (by decide)).trans rfl,
    (get_moves_legality_filter applyTrial1 gens1 sOcc2 [0]).1⟩

/-! ### Claim C2: get_moves leaks real back-references into the copy -/

/-- Heap of the C2 failing input: one board (id 0) of shape (2,) whose
cell [0] holds the real piece 0 of player 0, the piece's back-reference
pointing at (board 0, [0]). -/
def w0C2 : World :=
  { nextB := 1
    boardOf := fun _ => { shape := [2], contents := [some 0, none], jail := [] }
    nextP := 1
    pieceOf := fun _ => { player := 0, board := some 0, place := some [0] } }

/-- The repo's own direct_move generator, proposing the single candidate
"move the piece at the query point to [1]".  Its PLACE payload is
`board[origin]` — the real piece object. -/
def gensC2 : List (World → Nat → Point → List (List Mutation)) :=
  [fun w b o => [directMoveH w b o [1]]]

/-- C2 failing-input evaluation: running get_moves on the placed piece
returns the accepted candidate and leaves the real board's grid intact,
but the real piece's back-reference now points at the scratch copy
(board 1) at the candidate's destination [1] instead of the real board 0
at [0] — the trial observably mutated a real piece. -/
theorem get_moves_mutates_real_piece :
    (w0C2.pieceOf 0).board = some 0 ∧ (w0C2.pieceOf 0).place = some [0] ∧
      ((getMovesHeap w0C2 0 gensC2).1.boardOf 0).contents = [some 0, none] ∧
      ((getMovesHeap w0C2 0 gensC2).1.pieceOf 0).board = some 1 ∧
      ((getMovesHeap w0C2 0 gensC2).1.pieceOf 0).place = some [1] ∧
      (getMovesHeap w0C2 0 gensC2).2 =
        .ok [[{ op := .REMOVE, point := [0] },
              { op := .PLACE, point := [1], payload := some 0 }]] :=
  ⟨rfl, rfl, rfl, rfl, rfl, rfl⟩

end FlexChess
